import Mathlib

/-!
Verification of the toggle hierarchy and ordering engine of the
editorjs-toggle-block repository (src/index.js), against its
natural-language specification.

The engine works over the host editor's flat, linearly ordered block
sequence.  A block is modelled by the attributes the engine reads and
writes on its holder element:

* `id`         — the host editor's stable block identity (`block.id`);
* `name`       — the host block tool name (`block.name`, `"toggle"` for a
                 toggle root block);
* `fk`         — the `foreignKey` attribute (the parent-link tag written
                 by `setAttributesToNewBlock`, `none` when absent);
* `holderId`   — the `id` attribute written on the holder;
* `selectorId` — the `id` of the contained `.toggle-block__selector`
                 element when the block holds a toggle root (`none` when
                 the holder contains no selector element);
* `status`     — the `status` attribute on the holder;
* `itemClass`  — whether the holder's class list contains
                 `toggle-block__item`;
* `hidden`     — the DOM `hidden` flag set by `hideAndShowBlocks`.

A document is a `List Block` in document order, so
`document.querySelectorAll` over an attribute is a `List.filter`, in
document order.  Recursions of the source that walk nested-toggle links
(which do not structurally terminate on cyclic tag graphs, and would not
terminate in the source either) take an explicit fuel argument.
-/

structure Block where
  id : String
  name : String
  fk : Option String
  holderId : Option String
  selectorId : Option String
  status : Option String
  itemClass : Bool
  hidden : Bool
deriving DecidableEq, Repr

/-- The engine state outside the DOM: the document plus the per-root
membership list `this.itemsId` kept by the toggle instance. -/
structure EngineState where
  doc : List Block
  itemsId : List String
deriving DecidableEq, Repr

/-- Modelled from the spec: the host's out-of-bounds read
(`getBlockAt(position)`) "returns a placeholder empty block if out of
current bounds" (§6). -/
def placeholderBlock : Block :=
  { id := "", name := "", fk := none, holderId := none, selectorId := none,
    status := none, itemClass := false, hidden := false }

/-- Read the block at a nonnegative position, placeholder out of bounds. -/
def getL (doc : List Block) (i : Nat) : Block :=
  match doc.get? i with
  | some b => b
  | none => placeholderBlock

/-- Read the block at a possibly negative position (JS index arithmetic
can produce `-1`), placeholder out of bounds. -/
def getBlockAt (doc : List Block) (i : Int) : Block :=
  if 0 ≤ i then getL doc i.toNat else placeholderBlock

/-- Replace the block at index `i` by `f` applied to it; identity out of
bounds. -/
def modifyIdx : List Block → Nat → (Block → Block) → List Block
  | [], _, _ => []
  | b :: bs, 0, f => f b :: bs
  | b :: bs, n+1, f => b :: modifyIdx bs n f

/-- Remove the block at index `i`; identity out of bounds. -/
def eraseIdxL : List Block → Nat → List Block
  | [], _ => []
  | _ :: bs, 0 => bs
  | b :: bs, n+1 => b :: eraseIdxL bs n

/-- Insert a block so that it ends up at index `i`, clamping to the end
of the list when `i` exceeds the length (JS `splice` semantics). -/
def insertIdxL : List Block → Nat → Block → List Block
  | l, 0, x => x :: l
  | [], _+1, x => [x]
  | b :: bs, n+1, x => b :: insertIdxL bs n x

/-- Relocate the block at `fromIdx` so that it ends up at `toIdx`
(remove, then insert); identity when `fromIdx` is out of bounds. -/
def listMove (doc : List Block) (fromIdx toIdx : Nat) : List Block :=
  match doc.get? fromIdx with
  | none => doc
  | some b => insertIdxL (eraseIdxL doc fromIdx) toIdx b

/-- Modelled from the spec: the host primitive `moveBlock` (§6), called
as `this.move(toIndex, fromIndex)` / `this.api.blocks.move(to, from)` by
the source; a `PositionOutOfRange` navigation "is aborted, no mutation"
(§7). -/
def hostMove (doc : List Block) (toIdx fromIdx : Int) : List Block :=
  if 0 ≤ fromIdx ∧ fromIdx < (doc.length : Int) ∧ 0 ≤ toIdx ∧ toIdx < (doc.length : Int) then
    listMove doc fromIdx.toNat toIdx.toNat
  else doc

/-- JS template-literal coercion used by the source when an attribute
read feeds a selector string: a `null` attribute prints as `"null"`. -/
def jsStr (o : Option String) : String :=
  match o with
  | some s => s
  | none => "null"

/-- JS falsiness of a string-or-null attribute value: `null`, `undefined`
and the empty string are falsy. -/
def falsy (o : Option String) : Prop :=
  o = none ∨ o = some ""

instance (o : Option String) : Decidable (falsy o) := by
  unfold falsy; infer_instance

/-- The source's `document.querySelectorAll` over a `foreignKey` value:
every block whose holder carries `foreignKey = fk`, in document order. -/
def docFilterFk (doc : List Block) (fk : String) : List Block :=
  doc.filter (fun b => b.fk == some fk)

/-- The positions of the blocks `docFilterFk` returns, in document
order. -/
def childIdxs (doc : List Block) (fk : String) : List Nat :=
  (List.range doc.length).filter (fun i => (getL doc i).fk == some fk)

/-- JS `Array.prototype.indexOf`: first index of the element, `-1` when
absent. -/
def jsIndexOf (l : List String) (x : String) : Int :=
  match l.findIdx? (fun y => y == x) with
  | some i => (i : Int)
  | none => -1

/-- JS `Array.prototype.splice` start-index normalisation: a negative
start counts from the end (clamped at 0), a large start clamps to the
length. -/
def jsSpliceStart (len : Nat) (start : Int) : Nat :=
  if start < 0 then (max ((len : Int) + start) 0).toNat else min start.toNat len

/-- JS `l.splice(start, 1)`: remove one element at the normalised start
index.  In particular `splice(-1, 1)` removes the last element. -/
def spliceRemoveOne (l : List String) (start : Int) : List String :=
  let s := jsSpliceStart l.length start
  l.take s ++ l.drop (s+1)

/-- JS `l.splice(start, 0, x)`: insert `x` at the normalised start
index. -/
def spliceInsertOne (l : List String) (start : Int) (x : String) : List String :=
  let s := jsSpliceStart l.length start
  l.take s ++ x :: l.drop s

/-- The source's `getIndex(target)`: the current position of a DOM node
among its siblings; DOM node identity is modelled by the host block
identity `Block.id` (`-1` for a detached node). -/
def getIndexById (doc : List Block) (id : String) : Int :=
  match doc.findIdx? (fun b => b.id == id) with
  | some i => (i : Int)
  | none => -1

/-- Projection forgetting the `hidden` flag, used to state that the
visibility propagator mutates nothing but visibility. -/
def stripHidden (b : Block) : Block :=
  { b with hidden := false }

-- ------------------------------------------------------------------
-- Embedded source operations
-- ------------------------------------------------------------------

/-- `getDecendentsNumber(fk)` (src/index.js:651): counts every block
tagged with `fk` and, for each tagged block that itself carries a
`status` attribute (a nested toggle root), adds the recursive descendant
count of that nested root's selector id.  The source recursion is fuel
bounded here; a nested root whose holder carried a `status` attribute
but no selector element would throw in the source, and is modelled by
the `jsStr` coercion of the absent id. -/
def getDecendentsNumber (doc : List Block) : Nat → String → Nat
  | 0, _ => 0
  | fuel+1, fk =>
    (docFilterFk doc fk).foldl
      (fun counter child =>
        (if child.status.isSome then
          counter + getDecendentsNumber doc fuel (jsStr child.selectorId)
        else counter) + 1)
      0

/-- `isChild(parentID, targetFK)` (src/index.js:673), the spec's
`isDescendantOf`: false when either argument is absent or empty, true on
equality, and otherwise a search through the nested toggle roots tagged
with `parentID`. -/
def isChild (doc : List Block) : Nat → Option String → Option String → Bool
  | 0, _, _ => false
  | fuel+1, parentID, targetFK =>
    if falsy parentID ∨ falsy targetFK then false
    else if parentID = targetFK then true
    else
      (docFilterFk doc (jsStr parentID)).any
        (fun child =>
          match child.selectorId with
          | none => false
          | some tid => isChild doc fuel (some tid) targetFK)

/-- `setAttributesToNewBlock(entryIndex, foreignKey)` (src/index.js:496):
writes the `foreignKey` attribute, a fresh uuid as `id` attribute and
the `toggle-block__item` class on the block at `index`, and registers
the block's host identity in `itemsId` at `index - 1` when it is not
already registered.  The fresh uuid is passed in as `uuid`; the focus
and key-handler side effects touch no engine state and are omitted. -/
def setAttributesToNewBlock (st : EngineState) (index : Int) (foreignKey uuid : String) :
    EngineState :=
  let newBlock := getBlockAt st.doc index
  let doc1 :=
    if 0 ≤ index then
      modifyIdx st.doc index.toNat
        (fun b => { b with fk := some foreignKey, holderId := some uuid, itemClass := true })
    else st.doc
  let itemsId1 :=
    if st.itemsId.contains newBlock.id then st.itemsId
    else spliceInsertOne st.itemsId (index - 1) newBlock.id
  { doc := doc1, itemsId := itemsId1 }

/-- `removeAttributesFromNewBlock(destiny)` (src/index.js:453): when the
block's host identity is NOT in `itemsId` (the source's guard is
`!this.itemsId.includes(...)`), it splices at `indexOf` of that identity
— which is then `-1`, so JS removes the LAST entry of `itemsId`; then it
strips the `foreignKey` and `id` attributes and the
`toggle-block__item` class from the holder. -/
def removeAttributesFromNewBlock (st : EngineState) (destiny : Int) : EngineState :=
  let newBlock := getBlockAt st.doc destiny
  let itemsId1 :=
    if st.itemsId.contains newBlock.id then st.itemsId
    else spliceRemoveOne st.itemsId (jsIndexOf st.itemsId newBlock.id)
  let doc1 :=
    if 0 ≤ destiny then
      modifyIdx st.doc destiny.toNat
        (fun b => { b with fk := none, holderId := none, itemClass := false })
    else st.doc
  { doc := doc1, itemsId := itemsId1 }

/-- The delete loop of `removeFullToggle`: `n` calls of
`this.api.blocks.delete(toggleIndex)` in sequence. -/
def deleteLoop (i : Nat) : List Block → Nat → List Block
  | doc, 0 => doc
  | doc, n+1 => deleteLoop i (eraseIdxL doc i) n

/-- `removeFullToggle(toggleIndex)` (src/index.js:384): snapshots the
blocks tagged with the root's id (`children`), then deletes at
`toggleIndex` once per snapshot entry (`for i in [toggleIndex,
toggleIndex + length)`), i.e. `length` times.  Returns the resulting
document and the number of issued deletions (each at `toggleIndex`). -/
def removeFullToggle (doc : List Block) (wrapperId : String) (toggleIndex : Nat) :
    List Block × Nat :=
  let len := (docFilterFk doc wrapperId).length
  (deleteLoop toggleIndex doc len, len)

/-- `findToogleRootIndex(entryIndex, fk)` (src/index.js:602): walk
backward from `entryIndex`; at each position, if the block holds a
toggle selector whose id equals `fk`, return the position, else keep
walking; `-1` when the walk reaches the front without a match.  The
source's `isAToggleRoot(holder)` test on a holder is the presence of a
contained selector element. -/
def findToogleRootIndex (doc : List Block) : Nat → Option String → Int
  | 0, fk =>
    if (getL doc 0).selectorId.isSome ∧ fk = (getL doc 0).selectorId then 0 else -1
  | n+1, fk =>
    if (getL doc (n+1)).selectorId.isSome ∧ fk = (getL doc (n+1)).selectorId then
      ((n+1 : Nat) : Int)
    else findToogleRootIndex doc n fk

/-- `extractBlock(entryIndex)` (src/index.js:899): for a block carrying
the `toggle-block__item` class, resolve its toggle root position from
its `foreignKey`; when found, compute `destiny = parentIndex + items`
with `items` the root's descendant count, relocate the block to
`destiny` when `items > 1`, and strip the attributes at `destiny` (the
deferred `removeAttributesFromNewBlock` call).  The caret and toolbar
calls touch no engine state and are omitted. -/
def extractBlock (fuel : Nat) (st : EngineState) (entryIndex : Nat) : EngineState :=
  let block := getL st.doc entryIndex
  if block.itemClass then
    let fk := block.fk
    let parentIndex := findToogleRootIndex st.doc entryIndex fk
    if 0 ≤ parentIndex then
      let items := getDecendentsNumber st.doc fuel (jsStr fk)
      let destiny := parentIndex + (items : Int)
      let st1 :=
        if 1 < items then { st with doc := hostMove st.doc destiny (entryIndex : Int) }
        else st
      removeAttributesFromNewBlock st1 destiny
    else st
  else st

/-- `hideAndShowBlocks(foreignKey, value)` (src/index.js:1020): fold
the `children.forEach` loop over the positions of the blocks tagged
with `foreignKey`, over the evolving document: each member's `hidden`
flag is set to `value === 'closed'`; a member holding a nested toggle
selector triggers a recursive pass over that selector's id, with the
outer value when it is `'closed'` and the member's own `status`
attribute otherwise.  The fuel bounds the nesting descent only.  When
the toggle has no members the source merely toggles a css class on the
root's default-content element, which touches no block, so the fold
over the empty member list returns the document unchanged. -/
def hideAndShowBlocks : Nat → List Block → String → Option String → List Block
  | 0, d, _, _ => d
  | fuel+1, d, foreignKey, value =>
    (childIdxs d foreignKey).foldl
      (fun acc i =>
        let acc1 := modifyIdx acc i (fun b => { b with hidden := value == some "closed" })
        match (getL acc1 i).selectorId with
        | some tid =>
          hideAndShowBlocks fuel acc1 tid
            (if value == some "closed" then value else (getL acc1 i).status)
        | none => acc1)
      d

/-- The hidden-flag write of the `hideAndShowBlocks` loop body, named
for the proofs. -/
def hideMark (value : Option String) (acc : List Block) (i : Nat) : List Block :=
  modifyIdx acc i (fun b => { b with hidden := value == some "closed" })

/-- The loop body of `hideAndShowBlocks` at one member position, named
for the proofs; definitionally the fold function of
`hideAndShowBlocks`. -/
def hideStep (fuel : Nat) (value : Option String) (acc : List Block) (i : Nat) :
    List Block :=
  let acc1 := hideMark value acc i
  match (getL acc1 i).selectorId with
  | some tid =>
    hideAndShowBlocks fuel acc1 tid
      (if value == some "closed" then value else (getL acc1 i).status)
  | none => acc1

/-- `moveDecendents(children, finalIndex, parentInitialIndex, direction)`
(src/index.js:818): a while-loop issuing one `this.move(finalPosition,
currentPosition)` per remaining `children`, stepping both positions
forward when `direction = 0`.  Returns the resulting document together
with the trace of issued `(toIndex, fromIndex)` move calls. -/
def moveDecendents (doc : List Block) (children : Nat) (finalIndex parentInitialIndex : Int)
    (direction : Nat) : List Block × List (Int × Int) :=
  match children with
  | 0 => (doc, [])
  | n+1 =>
    let d1 := hostMove doc finalIndex parentInitialIndex
    let nextCurrent := if direction = 0 then parentInitialIndex + 1 else parentInitialIndex
    let nextFinal := if direction = 0 then finalIndex + 1 else finalIndex
    let r := moveDecendents d1 n nextFinal nextCurrent direction
    (r.1, (finalIndex, parentInitialIndex) :: r.2)

/-- `findIndexOfParentBlock(currentToggleFk, blockFk, toggleInitialIndex)`
(src/index.js:628): step to `toggleInitialIndex - (descendants(blockFk)
+ 1)` and recurse while that position's block is tagged with a foreign
key different from both the current toggle's and the previous one's.
`dFuel` feeds the descendant counts, `rFuel` bounds the recursion. -/
def findIndexOfParentBlock (dFuel : Nat) (doc : List Block) :
    Nat → Option String → String → Int → Int
  | rFuel, currentToggleFk, blockFk, toggleInitialIndex =>
    let nested := getDecendentsNumber doc dFuel blockFk
    let parentBlockIndex := toggleInitialIndex - ((nested : Int) + 1)
    let parentBlock := getBlockAt doc parentBlockIndex
    match parentBlock.fk with
    | some parentBlockFk =>
      if some parentBlockFk ≠ currentToggleFk then
        let beforeBlock := getBlockAt doc (parentBlockIndex - 1)
        match beforeBlock.fk, rFuel with
        | some fk2, r+1 =>
          if fk2 ≠ parentBlockFk then
            findIndexOfParentBlock dFuel doc r currentToggleFk fk2 parentBlockIndex
          else parentBlockIndex
        | _, _ => parentBlockIndex
      else parentBlockIndex
    | none => parentBlockIndex

/-- `moveDown(toggleInitialIndex, toggleEndIndex)` (src/index.js:766):
move the block just after the toggle's range to the toggle's initial
position; when that block is itself a toggle root, also relocate its
descendants with `moveDecendents`. -/
def moveDown (fuel : Nat) (doc : List Block) (toggleInitialIndex toggleEndIndex : Int) :
    List Block :=
  let blockAfterToggleIndex := toggleEndIndex + 1
  let blockAfterToggle := getBlockAt doc blockAfterToggleIndex
  let doc1 := hostMove doc toggleInitialIndex blockAfterToggleIndex
  if blockAfterToggle.name == "toggle" then
    let id := jsStr blockAfterToggle.selectorId
    let children := getDecendentsNumber doc1 fuel id
    (moveDecendents doc1 children (toggleInitialIndex + 1) (blockAfterToggleIndex + 1) 0).1
  else doc1

/-- `moveUp(toggleInitialIndex, toggleEndIndex)` (src/index.js:786):
abort when the preceding block is a toggle root; when the preceding
block is tagged into a different, enclosing toggle, resolve that
toggle's root with `findIndexOfParentBlock` and move past its whole
subtree; otherwise move the preceding block to the toggle's end. -/
def moveUp (fuel : Nat) (doc : List Block) (toggleInitialIndex toggleEndIndex : Int) :
    List Block :=
  let blockBeforeToggleIndex := toggleInitialIndex - 1
  let blockBeforeToggle := getBlockAt doc blockBeforeToggleIndex
  if blockBeforeToggle.name == "toggle" then doc
  else
    match blockBeforeToggle.fk with
    | some fk =>
      let currentToggle := getBlockAt doc toggleInitialIndex
      let currentToggleFk := currentToggle.fk
      if some fk ≠ currentToggleFk then
        let parentBlockIdx :=
          findIndexOfParentBlock fuel doc fuel currentToggleFk fk toggleInitialIndex
        let parentBlock := getBlockAt doc parentBlockIdx
        let id := jsStr parentBlock.selectorId
        let children := getDecendentsNumber doc fuel id
        let doc1 := hostMove doc toggleEndIndex parentBlockIdx
        (moveDecendents doc1 children toggleEndIndex parentBlockIdx 1).1
      else hostMove doc toggleEndIndex blockBeforeToggleIndex
    | none => hostMove doc toggleEndIndex blockBeforeToggleIndex

/-- `moveToggle(toggleInitialIndex, direction)` (src/index.js:740):
no-op in read-only mode; otherwise restore the toggle root from the
host's ephemeral displacement (`this.move(toggleInitialIndex,
currentToggleIndex)`), and when `toggleInitialIndex ≥ 0` and the range
end does not exceed the last position, dispatch to `moveDown`
(`direction = 0`) or `moveUp`.  The toolbar `close()` call touches no
engine state and is omitted. -/
def moveToggle (fuel : Nat) (readOnly : Bool) (doc : List Block) (wrapperId : String)
    (toggleInitialIndex : Int) (direction : Nat) (currentToggleIndex : Int) : List Block :=
  if readOnly then doc
  else
    let decendents := getDecendentsNumber doc fuel wrapperId
    let blocks := (doc.length : Int)
    let toggleEndIndex := toggleInitialIndex + (decendents : Int)
    let doc1 := hostMove doc toggleInitialIndex currentToggleIndex
    if 0 ≤ toggleInitialIndex ∧ toggleEndIndex ≤ blocks - 1 then
      if direction = 0 then moveDown fuel doc1 toggleInitialIndex toggleEndIndex
      else moveUp fuel doc1 toggleInitialIndex toggleEndIndex
    else doc1

mutual

/-- The `children.forEach` loop of `moveChildren` (src/index.js:837)
over the captured member snapshot `kids`, threading the mutable
`endBlock` of the enclosing call: each member is moved to `endBlock`
from its current position; a member holding a nested toggle selector
additionally relocates its own members recursively and shifts
`endBlock` by the consumed drift `dif`. -/
def moveChildrenSeq (fuel : Nat) (startBlock : Int) (doc : List Block) (kids : List Block)
    (endBlock : Int) : List Block :=
  match kids with
  | [] => doc
  | child :: rest =>
    let childIndex := getIndexById doc child.id
    let doc1 := hostMove doc endBlock childIndex
    let next :=
      match child.selectorId with
      | some tid =>
        if _h : fuel = 0 then (doc1, endBlock)
        else
          let toggleIndex := getIndexById doc1 child.id
          let fix : Int := if startBlock < endBlock then 0 else 1
          let doc2 := moveChildren (fuel - 1) startBlock doc1 (toggleIndex + fix) tid
          let dif := |endBlock - toggleIndex|
          (doc2, if startBlock < endBlock then endBlock + dif else endBlock - dif)
      | none => (doc1, endBlock)
    moveChildrenSeq fuel startBlock next.1 rest next.2
termination_by (fuel, kids.length)
decreasing_by
· have hf : fuel - 1 + 1 = fuel := by omega
  have hl : 0 < (child :: rest).length := by simp
  exact hf ▸ Prod.Lex.right (fuel - 1 + 1) hl
· exact Prod.Lex.right fuel (by simp)

/-- `moveChildren(endBlock, fk)` (src/index.js:831): snapshot the blocks
tagged with `fk`, reverse the snapshot when `startBlock >= endBlock`,
and relocate them in order as in `moveChildrenSeq`. -/
def moveChildren (fuel : Nat) (startBlock : Int) (doc : List Block) (endBlock : Int)
    (fk : String) : List Block :=
  let children0 := docFilterFk doc fk
  let children := if startBlock ≥ endBlock then children0.reverse else children0
  moveChildrenSeq fuel startBlock doc children endBlock
termination_by (fuel + 1, 0)
decreasing_by
· exact Prod.Lex.left _ _ (by omega)

end

/-- The values the drop listener (src/index.js:217) captures
synchronously at the drop event, before its deferred callback runs:
the dragged block's start position and identity, the drop target's
position and attributes, and the dragged tool name. -/
structure DropCtx where
  startBlock : Int
  rawEndBlock : Int
  targetSelId : Option String
  targetFk : Option String
  nameDragged : String
  draggedIsCurrent : Bool
  draggedBlockId : String
deriving Repr

/-- The deferred callback of the drop listener
(src/index.js:232-274): compute the adjusted `endBlock` and the
`isTargetAToggle` test; when the dragged block is this instance's
toggle, either retag (`setAttributesToNewBlock`) and relocate the
subtree (`moveChildren`) on an accepted drop, or — when `isChild`
reports the target inside the dragged toggle's own subtree — move the
toggle back to its start position; finally strip the dragged block's
attributes whenever the target is not part of a toggle. -/
def onDropTimeout (fuel : Nat) (st : EngineState) (wrapperId uuid : String) (c : DropCtx) :
    EngineState :=
  let endBlock := if c.startBlock < c.rawEndBlock then c.rawEndBlock + 1 else c.rawEndBlock
  let isTargetAToggle := c.targetSelId.isSome || c.targetFk.isSome
  let st1 :=
    if c.nameDragged == "toggle" && c.draggedIsCurrent then
      if !(isChild st.doc fuel (some wrapperId) c.targetFk) then
        let stA :=
          if isTargetAToggle then
            let foreignKey :=
              match c.targetFk with
              | some f => f
              | none => jsStr c.targetSelId
            let newToggleIndex := getIndexById st.doc c.draggedBlockId
            setAttributesToNewBlock st newToggleIndex foreignKey uuid
          else st
        { stA with doc := moveChildren fuel c.startBlock stA.doc endBlock wrapperId }
      else
        let docMoved :=
          if c.startBlock == endBlock then hostMove st.doc (c.startBlock + 1) endBlock
          else hostMove st.doc c.startBlock endBlock
        let stB := { st with doc := docMoved }
        if !isTargetAToggle then
          removeAttributesFromNewBlock stB (getIndexById stB.doc c.draggedBlockId)
        else stB
    else st
  if !isTargetAToggle then
    removeAttributesFromNewBlock st1 (getIndexById st1.doc c.draggedBlockId)
  else st1

-- ------------------------------------------------------------------
-- Spec-side definitions (from the spec's words, for refinement claims)
-- ------------------------------------------------------------------

/-- Spec-side (§8, "Descendant count correctness"): the list of
currently tagged blocks reachable from a root id by following
nested-root links, including nested subtrees; a tagged block carrying a
`status` attribute is a nested root whose subtree is reached through
its selector id. -/
def reachableTagged (doc : List Block) : Nat → String → List Block
  | 0, _ => []
  | fuel+1, fk =>
    ((docFilterFk doc fk).map
      (fun child =>
        child ::
          (if child.status.isSome then reachableTagged doc fuel (jsStr child.selectorId)
           else []))).flatten

/-- Spec-side: the positions of every descendant block of a toggle
root id — the positions the visibility pass on that id visits, with
the same fuel discipline as `hideAndShowBlocks`. -/
def memberIdxs (doc : List Block) : Nat → String → List Nat
  | 0, _ => []
  | fuel+1, fk =>
    ((childIdxs doc fk).map
      (fun i =>
        i ::
          (match (getL doc i).selectorId with
           | some tid => memberIdxs doc fuel tid
           | none => []))).flatten

/-- Spec-side: the foreign keys of the recursive passes a visibility
pass on a root id spawns — each member's nested selector id plus,
recursively, the keys of that subtree, with the same fuel discipline
as `hideAndShowBlocks`. -/
def reachFks (doc : List Block) : Nat → String → List String
  | 0, _ => []
  | fuel+1, fk =>
    ((childIdxs doc fk).map
      (fun i =>
        match (getL doc i).selectorId with
        | some tid => tid :: reachFks doc fuel tid
        | none => [])).flatten

/-- Spec-side companion of `getDecendentsNumber`: the nested root ids
its recursion descends into from a root id, with the same fuel
discipline. -/
def descFks (doc : List Block) : Nat → String → List String
  | 0, _ => []
  | fuel+1, fk =>
    ((docFilterFk doc fk).map
      (fun child =>
        if child.status.isSome then
          jsStr child.selectorId :: descFks doc fuel (jsStr child.selectorId)
        else [])).flatten

-- ------------------------------------------------------------------
-- Basic lemmas about the list primitives
-- ------------------------------------------------------------------

theorem eraseIdxL_length (l : List Block) (i : Nat) (h : i < l.length) :
    (eraseIdxL l i).length = l.length - 1 := by
  induction l generalizing i with
  | nil => simp at h
  | cons b bs ih =>
    cases i with
    | zero => simp [eraseIdxL]
    | succ n =>
      simp only [eraseIdxL, List.length_cons]
      rw [ih n (by simpa using h)]
      simp at h
      omega

theorem insertIdxL_length (l : List Block) (i : Nat) (x : Block) :
    (insertIdxL l i x).length = l.length + 1 := by
  induction l generalizing i with
  | nil => cases i <;> simp [insertIdxL]
  | cons b bs ih =>
    cases i with
    | zero => simp [insertIdxL]
    | succ n => simp [insertIdxL, ih]

theorem modifyIdx_length (l : List Block) (i : Nat) (f : Block → Block) :
    (modifyIdx l i f).length = l.length := by
  induction l generalizing i with
  | nil => simp [modifyIdx]
  | cons b bs ih =>
    cases i with
    | zero => simp [modifyIdx]
    | succ n => simp [modifyIdx, ih]

theorem modifyIdx_get (l : List Block) (i j : Nat) (f : Block → Block) :
    (modifyIdx l i f).get? j = if i = j then (l.get? i).map f else l.get? j := by
  induction l generalizing i j with
  | nil => cases i <;> cases j <;> simp [modifyIdx]
  | cons b bs ih =>
    cases i with
    | zero => cases j <;> simp [modifyIdx]
    | succ n =>
      cases j with
      | zero => simp [modifyIdx]
      | succ m => simpa [modifyIdx] using ih n m

theorem insertIdxL_get_self (l : List Block) (i : Nat) (x : Block) (h : i ≤ l.length) :
    (insertIdxL l i x).get? i = some x := by
  induction l generalizing i with
  | nil =>
    have hi : i = 0 := by simpa using h
    subst hi
    simp [insertIdxL]
  | cons b bs ih =>
    cases i with
    | zero => simp [insertIdxL]
    | succ n => simpa [insertIdxL] using ih n (by simpa using h)

theorem eraseIdxL_insertIdxL (l : List Block) (i : Nat) (x : Block) (h : i ≤ l.length) :
    eraseIdxL (insertIdxL l i x) i = l := by
  induction l generalizing i with
  | nil =>
    have hi : i = 0 := by simpa using h
    subst hi
    simp [insertIdxL, eraseIdxL]
  | cons b bs ih =>
    cases i with
    | zero => simp [insertIdxL, eraseIdxL]
    | succ n => simpa [insertIdxL, eraseIdxL] using ih n (by simpa using h)

theorem insertIdxL_eraseIdxL (l : List Block) (i : Nat) (b : Block)
    (h : l.get? i = some b) : insertIdxL (eraseIdxL l i) i b = l := by
  induction l generalizing i with
  | nil => simp at h
  | cons c cs ih =>
    cases i with
    | zero =>
      simp only [List.get?] at h
      cases h
      simp [insertIdxL, eraseIdxL]
    | succ n => simpa [insertIdxL, eraseIdxL] using ih n (by simpa using h)

theorem perm_cons_eraseIdxL (l : List Block) (i : Nat) (b : Block)
    (h : l.get? i = some b) : l.Perm (b :: eraseIdxL l i) := by
  induction l generalizing i with
  | nil => simp at h
  | cons c cs ih =>
    cases i with
    | zero =>
      simp only [List.get?] at h
      cases h
      simp [eraseIdxL]
    | succ n =>
      have h' : cs.get? n = some b := by simpa using h
      show (c :: cs).Perm (b :: (c :: eraseIdxL cs n))
      exact ((ih n h').cons c).trans (List.Perm.swap b c _)

theorem perm_insertIdxL (l : List Block) (i : Nat) (x : Block) :
    (insertIdxL l i x).Perm (x :: l) := by
  induction l generalizing i with
  | nil => cases i <;> simp [insertIdxL]
  | cons b bs ih =>
    cases i with
    | zero => simp [insertIdxL]
    | succ n =>
      show (b :: insertIdxL bs n x).Perm (x :: (b :: bs))
      exact ((ih n).cons b).trans (List.Perm.swap x b _)

theorem listMove_perm (l : List Block) (i j : Nat) : (listMove l i j).Perm l := by
  unfold listMove
  cases h : l.get? i with
  | none => exact List.Perm.refl l
  | some b =>
    exact (perm_insertIdxL _ j b).trans (perm_cons_eraseIdxL l i b h).symm

theorem listMove_length (l : List Block) (i j : Nat) :
    (listMove l i j).length = l.length :=
  (listMove_perm l i j).length_eq

theorem listMove_inverse (l : List Block) (i j : Nat) (hi : i < l.length)
    (hj : j < l.length) : listMove (listMove l i j) j i = l := by
  obtain ⟨b, hb⟩ : ∃ b, l.get? i = some b := by
    cases h : l.get? i with
    | none =>
      rw [List.get?_eq_none] at h
      omega
    | some b => exact ⟨b, rfl⟩
  have hj' : j ≤ (eraseIdxL l i).length := by
    rw [eraseIdxL_length l i hi]; omega
  have hinner : listMove l i j = insertIdxL (eraseIdxL l i) j b := by
    unfold listMove
    rw [hb]
  rw [hinner]
  unfold listMove
  rw [insertIdxL_get_self _ _ _ hj', eraseIdxL_insertIdxL _ _ _ hj']
  exact insertIdxL_eraseIdxL l i b hb

-- ------------------------------------------------------------------
-- Concrete blocks used as inputs of evaluation theorems and witnesses
-- ------------------------------------------------------------------

/-- A toggle root block holding selector id `r`, untagged. -/
def rootBlockR : Block :=
  { id := "b0", name := "toggle", fk := none, holderId := none, selectorId := some "r",
    status := some "open", itemClass := false, hidden := false }

/-- A plain member block tagged into toggle `r`. -/
def childA : Block :=
  { id := "b1", name := "paragraph", fk := some "r", holderId := some "u1",
    selectorId := none, status := none, itemClass := true, hidden := false }

/-- A second plain member block tagged into toggle `r`. -/
def childB : Block :=
  { id := "b2", name := "paragraph", fk := some "r", holderId := some "u2",
    selectorId := none, status := none, itemClass := true, hidden := false }

/-- An ordinary block with no toggle attributes at all. -/
def plainC : Block :=
  { id := "b3", name := "paragraph", fk := none, holderId := none, selectorId := none,
    status := none, itemClass := false, hidden := false }

/-- A nested toggle root block: tagged into toggle `r`, holding its own
selector id `m` and a `status` attribute. -/
def nestedM : Block :=
  { id := "b4", name := "toggle", fk := some "r", holderId := some "u4",
    selectorId := some "m", status := some "open", itemClass := true, hidden := false }

/-- A plain member block tagged into the nested toggle `m`. -/
def childP : Block :=
  { id := "b5", name := "paragraph", fk := some "m", holderId := some "u5",
    selectorId := none, status := none, itemClass := true, hidden := false }

-- ------------------------------------------------------------------
-- C9
-- ------------------------------------------------------------------

/-- C9: for every nonnegative children count, the bulk descendant
relocation loop `moveDecendents` terminates (it is a total function)
and issues exactly that many move operations, one per iteration of the
count-decrementing loop. -/
theorem moveDecendents_issues_count (doc : List Block) (children : Nat)
    (finalIndex parentInitialIndex : Int) (direction : Nat) :
    (moveDecendents doc children finalIndex parentInitialIndex direction).2.length
      = children := by
  induction children generalizing doc finalIndex parentInitialIndex with
  | zero => rfl
  | succ n ih => simp [moveDecendents, ih]

-- ------------------------------------------------------------------
-- C10
-- ------------------------------------------------------------------

/-- C10: the descendant test `isChild` returns false whenever either
argument is absent (null/undefined) or the empty string; hence a drop
target carrying no parent-link is never judged to lie inside the
dragged toggle's subtree, and a toggle with no id is never an ancestor
of anything. -/
theorem isChild_falsy_false (doc : List Block) (fuel : Nat)
    (parentID targetFK : Option String) (h : falsy parentID ∨ falsy targetFK) :
    isChild doc fuel parentID targetFK = false := by
  cases fuel with
  | zero => rfl
  | succ f =>
    unfold isChild
    rw [if_pos h]

/-- Witness for C10 at a concrete input. -/
theorem isChild_falsy_false_witness :
    isChild [rootBlockR, childA] 2 (some "r") none = false :=
  isChild_falsy_false [rootBlockR, childA] 2 (some "r") none (Or.inr (Or.inl rfl))

-- ------------------------------------------------------------------
-- C7
-- ------------------------------------------------------------------

/-- Unfolding equation of `isChild` at positive fuel. -/
theorem isChild_succ (doc : List Block) (fuel : Nat) (a b : Option String) :
    isChild doc (fuel+1) a b =
      if falsy a ∨ falsy b then false
      else if a = b then true
      else
        (docFilterFk doc (jsStr a)).any
          (fun child =>
            match child.selectorId with
            | none => false
            | some tid => isChild doc fuel (some tid) b) := by
  rfl

/-- Reduction of the per-child test of `isChild` to an existential over
the selector id. -/
theorem match_selector_any (c : Block) (P : String → Bool) :
    ((match c.selectorId with
      | none => false
      | some tid => P tid) = true) ↔ ∃ tid, c.selectorId = some tid ∧ P tid = true := by
  cases h : c.selectorId with
  | none => simp
  | some tid => simp

/-- C7: for present, nonempty ids the descendant test `isChild` is
characterised by: true exactly when the two ids are equal or some block
tagged with the first id holds a nested toggle root from which the
second id is reachable by the same test; and it is reflexive. -/
theorem isChild_characterisation (doc : List Block) (fuel : Nat) (a b : Option String)
    (ha : ¬ falsy a) (hb : ¬ falsy b) :
    (isChild doc (fuel+1) a b = true ↔
      (a = b ∨ ∃ c ∈ docFilterFk doc (jsStr a), ∃ tid,
        c.selectorId = some tid ∧ isChild doc fuel (some tid) b = true))
    ∧ isChild doc (fuel+1) a a = true := by
  constructor
  · rw [isChild_succ]
    rw [if_neg (by tauto)]
    by_cases hab : a = b
    · simp [hab]
    · rw [if_neg hab]
      rw [List.any_eq_true]
      constructor
      · rintro ⟨c, hc, hcp⟩
        have hcp' : (match c.selectorId with
            | none => false
            | some tid => isChild doc fuel (some tid) b) = true := hcp
        rw [match_selector_any] at hcp'
        obtain ⟨tid, hsel, hrec⟩ := hcp'
        exact Or.inr ⟨c, hc, tid, hsel, hrec⟩
      · rintro (heq | ⟨c, hc, tid, hsel, hrec⟩)
        · exact absurd heq hab
        · exact ⟨c, hc, (match_selector_any c _).mpr ⟨tid, hsel, hrec⟩⟩
  · rw [isChild_succ]
    rw [if_neg (by tauto)]
    simp

/-- Witness for C7 at a concrete input. -/
theorem isChild_characterisation_witness :
    (isChild [rootBlockR, nestedM, childP] 2 (some "r") (some "m") = true ↔
      (some "r" = some "m" ∨ ∃ c ∈ docFilterFk [rootBlockR, nestedM, childP] "r", ∃ tid,
        c.selectorId = some tid ∧
          isChild [rootBlockR, nestedM, childP] 1 (some tid) (some "m") = true))
    ∧ isChild [rootBlockR, nestedM, childP] 2 (some "r") (some "r") = true :=
  isChild_characterisation [rootBlockR, nestedM, childP] 1 (some "r") (some "m")
    (by decide) (by decide)

-- ------------------------------------------------------------------
-- C2
-- ------------------------------------------------------------------

/-- C2 evaluation at a failing input: for a toggle root at position 0
with two direct (plain) members, `removeFullToggle` issues only 2
deletions — the snapshot length — not the descendant count plus one,
and the second member survives with its tag intact. -/
theorem removeFullToggle_deletion_count_bug :
    (removeFullToggle [rootBlockR, childA, childB, plainC] "r" 0).2 = 2
    ∧ getDecendentsNumber [rootBlockR, childA, childB, plainC] 2 "r" = 2
    ∧ (removeFullToggle [rootBlockR, childA, childB, plainC] "r" 0).2
        ≠ getDecendentsNumber [rootBlockR, childA, childB, plainC] 2 "r" + 1
    ∧ (removeFullToggle [rootBlockR, childA, childB, plainC] "r" 0).1
        = [childB, plainC] := by
  decide

-- ------------------------------------------------------------------
-- C8
-- ------------------------------------------------------------------

/-- C8 evaluation at a failing input: untagging a block that carries no
tag while `itemsId` is nonempty and does not contain the block's
identity removes the last entry of `itemsId` (the source guard
`!includes` makes `indexOf` return `-1` and `splice(-1, 1)` drops the
last element), so the operation is not a no-op on the engine state. -/
theorem removeAttributesFromNewBlock_untag_bug :
    (removeAttributesFromNewBlock { doc := [plainC], itemsId := ["x"] } 0).itemsId = []
    ∧ (removeAttributesFromNewBlock { doc := [plainC], itemsId := ["x"] } 0).doc = [plainC]
    ∧ removeAttributesFromNewBlock { doc := [plainC], itemsId := ["x"] } 0
        ≠ { doc := [plainC], itemsId := ["x"] } := by
  decide

-- ------------------------------------------------------------------
-- C1
-- ------------------------------------------------------------------

/-- The counter fold of `getDecendentsNumber` as a sum over the member
snapshot. -/
theorem descCount_foldl_sum (doc : List Block) (fuel : Nat) (l : List Block) (a : Nat) :
    l.foldl
      (fun counter child =>
        (if child.status.isSome then
          counter + getDecendentsNumber doc fuel (jsStr child.selectorId)
        else counter) + 1) a
    = a + (l.map
        (fun child =>
          1 + (if child.status.isSome then
            getDecendentsNumber doc fuel (jsStr child.selectorId)
          else 0))).sum := by
  induction l generalizing a with
  | nil => simp
  | cons c cs ih =>
    simp only [List.foldl_cons, List.map_cons, List.sum_cons]
    rw [ih]
    by_cases h : c.status.isSome <;> simp [h] <;> omega

/-- The descendant count equals the length of the spec-side reachable
tagged-block list, at every fuel. -/
theorem getDecendentsNumber_eq_reachable_length (doc : List Block) :
    ∀ fuel fk, getDecendentsNumber doc fuel fk = (reachableTagged doc fuel fk).length := by
  intro fuel
  induction fuel with
  | zero => intro fk; rfl
  | succ f ih =>
    intro fk
    show (docFilterFk doc fk).foldl _ 0 = _
    rw [descCount_foldl_sum]
    show _ = (((docFilterFk doc fk).map _).flatten).length
    rw [List.length_flatten, List.map_map]
    simp only [Nat.zero_add]
    congr 1
    apply List.map_congr_left
    intro c _
    by_cases h : c.status.isSome
    · simp [h, ih]
      omega
    · simp [h, ih]

/-- C1: the descendant count query returns, for every root id, the sum
over every block tagged with that id of one plus — when the block is
itself a nested toggle root — the recursive descendant count of the
nested root; it returns zero for a toggle with no tagged members; and
it equals the total number of tagged blocks reachable from the root
through nested-root links. -/
theorem getDecendentsNumber_spec (doc : List Block) (fuel : Nat) (fk : String) :
    (getDecendentsNumber doc (fuel+1) fk
      = ((docFilterFk doc fk).map
          (fun child =>
            1 + (if child.status.isSome then
              getDecendentsNumber doc fuel (jsStr child.selectorId)
            else 0))).sum)
    ∧ (docFilterFk doc fk = [] → getDecendentsNumber doc (fuel+1) fk = 0)
    ∧ getDecendentsNumber doc (fuel+1) fk = (reachableTagged doc (fuel+1) fk).length := by
  refine ⟨?_, ?_, getDecendentsNumber_eq_reachable_length doc (fuel+1) fk⟩
  · show (docFilterFk doc fk).foldl _ 0 = _
    rw [descCount_foldl_sum]
    simp
  · intro hempty
    show (docFilterFk doc fk).foldl _ 0 = 0
    rw [hempty]
    rfl

/-- Witness for C1 at a concrete input (a toggle with no tagged
members has descendant count zero). -/
theorem getDecendentsNumber_spec_witness :
    getDecendentsNumber [rootBlockR, plainC] 1 "r" = 0 :=
  (getDecendentsNumber_spec [rootBlockR, plainC] 0 "r").2.1 (by decide)

-- ------------------------------------------------------------------
-- C6
-- ------------------------------------------------------------------

theorem getBlockAt_neg (doc : List Block) (i : Int) (h : i < 0) :
    getBlockAt doc i = placeholderBlock := by
  unfold getBlockAt
  rw [if_neg (by omega)]

theorem getBlockAt_big (doc : List Block) (i : Int) (h : (doc.length : Int) ≤ i) :
    getBlockAt doc i = placeholderBlock := by
  unfold getBlockAt
  rw [if_pos (by omega)]
  unfold getL
  have hn : doc.get? i.toNat = none := by
    rw [List.get?_eq_none]
    omega
  rw [hn]

theorem hostMove_from_oob (doc : List Block) (toIdx fromIdx : Int)
    (h : fromIdx < 0 ∨ (doc.length : Int) ≤ fromIdx) :
    hostMove doc toIdx fromIdx = doc := by
  unfold hostMove
  rw [if_neg]
  rintro ⟨h1, h2, _, _⟩
  omega

/-- C6: with the host primitives of the spec (placeholder block on an
out-of-bounds read, aborted move on an out-of-bounds position), the
move-toggle operation leaves the logical block sequence unchanged at
the boundaries: moving up when the root's initial position is 0, and
moving down when the range end sits at the last position.  The document
the handler sees is the original sequence with the root ephemerally
displaced from its initial position `p` to the cursor position `c` (the
displacement `moveToggle` first undoes). -/
theorem moveToggle_boundary_noop (docOrig : List Block) (wrapperId : String) (fuel : Nat)
    (p c : Nat) (hp : p < docOrig.length) (hc : c < docOrig.length) :
    (p = 0 →
      moveToggle fuel false (listMove docOrig p c) wrapperId (p : Int) 1 (c : Int) = docOrig)
    ∧ ((p : Int) + (getDecendentsNumber (listMove docOrig p c) fuel wrapperId : Int)
          = (docOrig.length : Int) - 1 →
        moveToggle fuel false (listMove docOrig p c) wrapperId (p : Int) 0 (c : Int)
          = docOrig) := by
  have hlen : (listMove docOrig p c).length = docOrig.length := listMove_length _ _ _
  have hrestore : hostMove (listMove docOrig p c) (p : Int) (c : Int) = docOrig := by
    unfold hostMove
    rw [if_pos]
    · have h1 : ((c : Int)).toNat = c := Int.toNat_natCast c
      have h2 : ((p : Int)).toNat = p := Int.toNat_natCast p
      rw [h1, h2]
      exact listMove_inverse docOrig p c hp hc
    · refine ⟨by omega, by rw [hlen]; exact_mod_cast hc, by omega, by rw [hlen]; exact_mod_cast hp⟩
  set N := getDecendentsNumber (listMove docOrig p c) fuel wrapperId with hN
  constructor
  · intro hp0
    subst hp0
    have hup : moveUp fuel docOrig ((0 : Nat) : Int) (((0 : Nat) : Int) + (N : Int)) = docOrig := by
      have hb : getBlockAt docOrig (((0 : Nat) : Int) - 1) = placeholderBlock :=
        getBlockAt_neg docOrig _ (by omega)
      simp only [moveUp, hb]
      have hname : (placeholderBlock.name == "toggle") = false := by decide
      rw [hname]
      simp only [Bool.false_eq_true, if_false]
      show hostMove docOrig _ (((0 : Nat) : Int) - 1) = docOrig
      exact hostMove_from_oob docOrig _ _ (Or.inl (by omega))
    simp only [moveToggle, Bool.false_eq_true, if_false, hrestore, ← hN]
    by_cases hguard : (0 : Int) ≤ ((0 : Nat) : Int) ∧
        ((0 : Nat) : Int) + (N : Int) ≤ ((listMove docOrig 0 c).length : Int) - 1
    · rw [if_pos hguard]
      rw [if_neg (by omega)]
      exact hup
    · rw [if_neg hguard]
  · intro hend
    have hdown : moveDown fuel docOrig (p : Int) ((p : Int) + (N : Int)) = docOrig := by
      have hb : getBlockAt docOrig ((p : Int) + (N : Int) + 1) = placeholderBlock :=
        getBlockAt_big docOrig _ (by omega)
      have hmv : hostMove docOrig (p : Int) ((p : Int) + (N : Int) + 1) = docOrig :=
        hostMove_from_oob docOrig _ _ (Or.inr (by omega))
      have hname : (placeholderBlock.name == "toggle") = false := by decide
      simp only [moveDown, hb, hmv, hname, Bool.false_eq_true, if_false]
    simp only [moveToggle, Bool.false_eq_true, if_false, hrestore, ← hN]
    rw [if_pos]
    · simp only [if_true]
      exact hdown
    · constructor
      · omega
      · rw [hlen]
        omega

/-- Witness for C6 at a concrete input: a two-block document whose
toggle root sits at position 0 with one member, so both boundary cases
apply (up at position 0, and down with the range end at the last
position). -/
theorem moveToggle_boundary_noop_witness :
    moveToggle 2 false (listMove [rootBlockR, childA] 0 0) "r" ((0 : Nat) : Int) 1
        ((0 : Nat) : Int) = [rootBlockR, childA]
    ∧ moveToggle 2 false (listMove [rootBlockR, childA] 0 0) "r" ((0 : Nat) : Int) 0
        ((0 : Nat) : Int) = [rootBlockR, childA] :=
  ⟨(moveToggle_boundary_noop [rootBlockR, childA] "r" 2 0 0 (by decide) (by decide)).1 rfl,
   (moveToggle_boundary_noop [rootBlockR, childA] "r" 2 0 0 (by decide) (by decide)).2
     (by decide)⟩

-- ------------------------------------------------------------------
-- C5
-- ------------------------------------------------------------------

/-- A successful descendant test implies both of its arguments were
present and nonempty. -/
theorem isChild_true_not_falsy (doc : List Block) (fuel : Nat) (a b : Option String)
    (h : isChild doc fuel a b = true) : ¬ falsy a ∧ ¬ falsy b := by
  cases fuel with
  | zero => exact absurd h (by simp [isChild])
  | succ f =>
    rw [isChild_succ] at h
    by_cases hf : falsy a ∨ falsy b
    · rw [if_pos hf] at h
      simp at h
    · tauto

/-- C5: when the dragged unit is the instance's own toggle and the drop
target lies within its own descendant subtree (the `isChild` test
succeeds), the deferred drop handler undoes the host's relocation of
the dragged root (spec-modelled as a `listMove` from the root's start
position `s` to the position `m` the handler's computed `endBlock`
names) and touches no tag: the document returns to the pre-drop
sequence and the membership list is unchanged. -/
theorem dropIntoOwnSubtree_rejected (docOrig : List Block) (st : EngineState)
    (wrapperId uuid : String) (c : DropCtx) (fuel : Nat) (s m : Nat)
    (hs : s < docOrig.length) (hm : m < docOrig.length) (hsm : s ≠ m)
    (hdoc : st.doc = listMove docOrig s m)
    (hstart : c.startBlock = (s : Int))
    (hend : (if c.startBlock < c.rawEndBlock then c.rawEndBlock + 1 else c.rawEndBlock)
      = (m : Int))
    (hname : c.nameDragged = "toggle") (hcur : c.draggedIsCurrent = true)
    (hrej : isChild st.doc fuel (some wrapperId) c.targetFk = true) :
    (onDropTimeout fuel st wrapperId uuid c).doc = docOrig
    ∧ (onDropTimeout fuel st wrapperId uuid c).itemsId = st.itemsId := by
  obtain ⟨-, hnf⟩ := isChild_true_not_falsy _ _ _ _ hrej
  have hfsome : c.targetFk.isSome = true := by
    cases hft : c.targetFk with
    | none => exact absurd (Or.inl rfl) (hft ▸ hnf)
    | some t => rfl
  have htgl : (c.targetSelId.isSome || c.targetFk.isSome) = true := by
    rw [hfsome]
    simp
  have hrestore : hostMove st.doc (s : Int) (m : Int) = docOrig := by
    rw [hdoc]
    unfold hostMove
    rw [if_pos]
    · rw [Int.toNat_natCast, Int.toNat_natCast]
      exact listMove_inverse docOrig s m hs hm
    · have hlen : (listMove docOrig s m).length = docOrig.length := listMove_length _ _ _
      exact ⟨by omega, by rw [hlen]; exact_mod_cast hm, by omega,
        by rw [hlen]; exact_mod_cast hs⟩
  have hbeq : (c.startBlock == (m : Int)) = false := by
    rw [hstart]
    rw [beq_eq_false_iff_ne]
    exact_mod_cast hsm
  have hend2 : (if (s : Int) < c.rawEndBlock then c.rawEndBlock + 1 else c.rawEndBlock)
      = (m : Int) := by
    rw [← hstart]
    exact hend
  simp only [onDropTimeout, hend, hname, hcur, hrej, htgl, hbeq, hstart, hrestore]
  have hbeq2 : (((s : Int)) == ((m : Int))) = false := by
    rw [beq_eq_false_iff_ne]
    exact_mod_cast hsm
  simp only [hend2]
  simp [hbeq2, hrestore]

/-- Witness for C5 at a concrete input: toggle `r` at position 0 with
two members is dropped onto its second member; the handler restores the
original three-block sequence and the membership list. -/
theorem dropIntoOwnSubtree_rejected_witness :
    (onDropTimeout 2
        { doc := listMove [rootBlockR, childA, childB] 0 2, itemsId := ["k"] } "r" "u9"
        { startBlock := ((0 : Nat) : Int), rawEndBlock := 1, targetSelId := none,
          targetFk := some "r", nameDragged := "toggle", draggedIsCurrent := true,
          draggedBlockId := "b0" }).doc = [rootBlockR, childA, childB]
    ∧ (onDropTimeout 2
        { doc := listMove [rootBlockR, childA, childB] 0 2, itemsId := ["k"] } "r" "u9"
        { startBlock := ((0 : Nat) : Int), rawEndBlock := 1, targetSelId := none,
          targetFk := some "r", nameDragged := "toggle", draggedIsCurrent := true,
          draggedBlockId := "b0" }).itemsId = ["k"] :=
  dropIntoOwnSubtree_rejected [rootBlockR, childA, childB]
    { doc := listMove [rootBlockR, childA, childB] 0 2, itemsId := ["k"] } "r" "u9"
    { startBlock := ((0 : Nat) : Int), rawEndBlock := 1, targetSelId := none,
      targetFk := some "r", nameDragged := "toggle", draggedIsCurrent := true,
      draggedBlockId := "b0" } 2 0 2 (by decide) (by decide) (by decide) rfl rfl
    (by decide) rfl rfl (by decide)

-- ------------------------------------------------------------------
-- C4
-- ------------------------------------------------------------------

/-- C4 counterexample: extracting a member that is itself a nested
toggle root (here `m`, with one member of its own, from toggle `r` with
descendant count 2) leaves `r` with descendant count 0, not the
claimed 2 - 1 = 1: the nested root's subtree leaves the count together
with the root. -/
theorem extractBlock_nested_counterexample :
    getDecendentsNumber [rootBlockR, nestedM, childP] 2 "r" = 2
    ∧ getDecendentsNumber
        (extractBlock 2 { doc := [rootBlockR, nestedM, childP], itemsId := ["b4"] } 1).doc
        2 "r" = 0
    ∧ (0 : Nat) ≠ 2 - 1 := by
  decide

/-- The attribute strip `removeAttributesFromNewBlock` applies to the
holder. -/
def clearTag (b : Block) : Block :=
  { b with fk := none, holderId := none, itemClass := false }

theorem eraseIdxL_modifyIdx (l : List Block) (i : Nat) (f : Block → Block) :
    eraseIdxL (modifyIdx l i f) i = eraseIdxL l i := by
  induction l generalizing i with
  | nil => simp [modifyIdx]
  | cons b bs ih =>
    cases i with
    | zero => simp [modifyIdx, eraseIdxL]
    | succ n => simp [modifyIdx, eraseIdxL, ih]

theorem modifyIdx_perm (l : List Block) (i : Nat) (f : Block → Block) (M : Block)
    (hM : l.get? i = some M) : (modifyIdx l i f).Perm (f M :: eraseIdxL l i) := by
  have h1 : (modifyIdx l i f).get? i = some (f M) := by
    rw [modifyIdx_get, if_pos rfl, hM]
    rfl
  have h2 := perm_cons_eraseIdxL (modifyIdx l i f) i (f M) h1
  rw [eraseIdxL_modifyIdx] at h2
  exact h2

theorem modifyIdx_insertIdxL (l : List Block) (i : Nat) (x : Block) (f : Block → Block)
    (h : i ≤ l.length) : modifyIdx (insertIdxL l i x) i f = insertIdxL l i (f x) := by
  induction l generalizing i with
  | nil =>
    have hi : i = 0 := by simpa using h
    subst hi
    simp [insertIdxL, modifyIdx]
  | cons b bs ih =>
    cases i with
    | zero => simp [insertIdxL, modifyIdx]
    | succ n => simpa [insertIdxL, modifyIdx] using ih n (by simpa using h)

/-- Clearing the relocated member commutes, up to permutation, with
clearing it in place. -/
theorem modify_listMove_perm (doc : List Block) (e dst : Nat) (M : Block)
    (hM : doc.get? e = some M) (hdst : dst ≤ doc.length - 1) (he : e < doc.length)
    (f : Block → Block) :
    (modifyIdx (listMove doc e dst) dst f).Perm (modifyIdx doc e f) := by
  have hdst' : dst ≤ (eraseIdxL doc e).length := by
    rw [eraseIdxL_length doc e he]
    omega
  have hmv : listMove doc e dst = insertIdxL (eraseIdxL doc e) dst M := by
    unfold listMove
    rw [hM]
  rw [hmv, modifyIdx_insertIdxL _ _ _ _ hdst']
  exact (perm_insertIdxL _ _ _).trans (modifyIdx_perm doc e f M hM).symm

/-- The descendant count only depends on the document up to
permutation. -/
theorem getDecendentsNumber_perm (d1 d2 : List Block) (h : d1.Perm d2) :
    ∀ fuel fk, getDecendentsNumber d1 fuel fk = getDecendentsNumber d2 fuel fk := by
  intro fuel
  induction fuel with
  | zero => intro fk; rfl
  | succ f ih =>
    intro fk
    have hf : (docFilterFk d1 fk).Perm (docFilterFk d2 fk) := h.filter _
    show (docFilterFk d1 fk).foldl _ 0 = (docFilterFk d2 fk).foldl _ 0
    rw [descCount_foldl_sum, descCount_foldl_sum]
    simp only [Nat.zero_add]
    have hmap : (docFilterFk d1 fk).map
        (fun child =>
          1 + (if child.status.isSome then
            getDecendentsNumber d1 f (jsStr child.selectorId)
          else 0))
        = (docFilterFk d1 fk).map
        (fun child =>
          1 + (if child.status.isSome then
            getDecendentsNumber d2 f (jsStr child.selectorId)
          else 0)) := by
      apply List.map_congr_left
      intro c _
      by_cases hs : c.status.isSome <;> simp [hs, ih]
    rw [hmap]
    exact List.Perm.sum_eq (hf.map _)

/-- Membership in the nested-root id set of the count recursion. -/
theorem mem_descFks_succ (doc : List Block) (fuel : Nat) (fk t : String) :
    t ∈ descFks doc (fuel+1) fk ↔
      ∃ c ∈ docFilterFk doc fk, c.status.isSome = true ∧
        (t = jsStr c.selectorId ∨ t ∈ descFks doc fuel (jsStr c.selectorId)) := by
  show t ∈ ((docFilterFk doc fk).map _).flatten ↔ _
  rw [List.mem_flatten]
  constructor
  · rintro ⟨l, hl, ht⟩
    rw [List.mem_map] at hl
    obtain ⟨c, hc, hceq⟩ := hl
    by_cases hs : c.status.isSome
    · rw [if_pos hs] at hceq
      refine ⟨c, hc, hs, ?_⟩
      rw [← hceq] at ht
      rcases List.mem_cons.mp ht with ht' | ht'
      · exact Or.inl ht'
      · exact Or.inr ht' 
    · rw [if_neg hs] at hceq
      rw [← hceq] at ht
      simp at ht
  · rintro ⟨c, hc, hs, ht⟩
    refine ⟨jsStr c.selectorId :: descFks doc fuel (jsStr c.selectorId), ?_, ?_⟩
    · rw [List.mem_map]
      exact ⟨c, hc, by rw [if_pos hs]⟩
    · rcases ht with ht | ht
      · rw [ht]; exact List.mem_cons_self _ _
      · exact List.mem_cons_of_mem _ ht

/-- A modification that leaves the filter predicate false on the
modified element leaves the filtered list unchanged. -/
theorem filter_modify_unchanged (doc : List Block) (e : Nat) (M : Block) (p : Block → Bool)
    (f : Block → Block) (hM : doc.get? e = some M) (h1 : p M = false) (h2 : p (f M) = false) :
    (modifyIdx doc e f).filter p = doc.filter p := by
  induction doc generalizing e with
  | nil => simp [modifyIdx]
  | cons b bs ih =>
    cases e with
    | zero =>
      have hb : b = M := by simpa using hM
      subst hb
      simp [modifyIdx, List.filter_cons, h1, h2]
    | succ n =>
      have hM' : bs.get? n = some M := by simpa using hM
      by_cases hb : p b <;> simp [modifyIdx, List.filter_cons, hb, ih n hM']

/-- The filtered list around a modification that flips the predicate
from true to false on the modified element: the original filter splits
around the element, and the modified filter drops it. -/
theorem filter_modify_split (doc : List Block) (e : Nat) (M : Block) (p : Block → Bool)
    (f : Block → Block) (hM : doc.get? e = some M) (hpM : p M = true) (hpf : p (f M) = false) :
    doc.filter p = (doc.take e).filter p ++ M :: ((doc.drop (e+1)).filter p)
    ∧ (modifyIdx doc e f).filter p = (doc.take e).filter p ++ ((doc.drop (e+1)).filter p) := by
  induction doc generalizing e with
  | nil => simp at hM
  | cons b bs ih =>
    cases e with
    | zero =>
      have hb : b = M := by simpa using hM
      subst hb
      simp [modifyIdx, List.filter_cons, hpM, hpf]
    | succ n =>
      have hM' : bs.get? n = some M := by simpa using hM
      obtain ⟨ha, hb'⟩ := ih n hM'
      by_cases hb : p b <;>
        simp [modifyIdx, List.filter_cons, hb, ha, hb']

/-- Clearing the tag of a block tagged `R` does not change the
descendant count of any root id from which `R` is unreachable. -/
theorem count_clear_untouched (doc : List Block) (e : Nat) (M : Block) (R : String)
    (hM : doc.get? e = some M) (hMfk : M.fk = some R) :
    ∀ fuel fk', fk' ≠ R → R ∉ descFks doc fuel fk' →
      getDecendentsNumber (modifyIdx doc e clearTag) fuel fk'
        = getDecendentsNumber doc fuel fk' := by
  intro fuel
  induction fuel with
  | zero =>
    intro fk' _ _
    rfl
  | succ f ih =>
    intro fk' hne hnotin
    have hfil : docFilterFk (modifyIdx doc e clearTag) fk' = docFilterFk doc fk' := by
      apply filter_modify_unchanged doc e M _ clearTag hM
      · rw [hMfk, beq_eq_false_iff_ne]
        intro hcontr
        exact hne (Option.some.inj hcontr).symm
      · rfl
    show (docFilterFk (modifyIdx doc e clearTag) fk').foldl _ 0
      = (docFilterFk doc fk').foldl _ 0
    rw [hfil, descCount_foldl_sum, descCount_foldl_sum]
    refine congrArg (fun l => 0 + List.sum l) (List.map_congr_left ?_)
    intro c hc
    by_cases hs : c.status.isSome
    · have htid : jsStr c.selectorId ∈ descFks doc (f+1) fk' :=
        (mem_descFks_succ doc f fk' _).mpr ⟨c, hc, hs, Or.inl rfl⟩
      have h1 : jsStr c.selectorId ≠ R := fun h => hnotin (h ▸ htid)
      have h2 : R ∉ descFks doc f (jsStr c.selectorId) := fun h =>
        hnotin ((mem_descFks_succ doc f fk' R).mpr ⟨c, hc, hs, Or.inr h⟩)
      simp [hs, ih _ h1 h2]
    · simp [hs]

/-- Clearing the tag of a plain (non-toggle) member of `R` decrements
`R`'s descendant count by exactly one, provided the count recursion
from `R` never revisits `R`. -/
theorem count_clear_member (doc : List Block) (e : Nat) (M : Block) (R : String) (fuel : Nat)
    (hM : doc.get? e = some M) (hMfk : M.fk = some R) (hMst : M.status = none)
    (hacy : R ∉ descFks doc (fuel+1) R) :
    getDecendentsNumber (modifyIdx doc e clearTag) (fuel+1) R
      = getDecendentsNumber doc (fuel+1) R - 1 := by
  have hpM : (M.fk == some R) = true := by
    rw [hMfk]
    simp
  have hpf : ((clearTag M).fk == some R) = false := by rfl
  obtain ⟨hd, hd'⟩ :=
    filter_modify_split doc e M (fun b => b.fk == some R) clearTag hM hpM hpf
  have hpoint : ∀ c ∈ docFilterFk doc R,
      1 + (if c.status.isSome then
        getDecendentsNumber (modifyIdx doc e clearTag) fuel (jsStr c.selectorId) else 0)
      = 1 + (if c.status.isSome then
        getDecendentsNumber doc fuel (jsStr c.selectorId) else 0) := by
    intro c hc
    by_cases hs : c.status.isSome
    · have htid : jsStr c.selectorId ∈ descFks doc (fuel+1) R :=
        (mem_descFks_succ doc fuel R _).mpr ⟨c, hc, hs, Or.inl rfl⟩
      have h1 : jsStr c.selectorId ≠ R := fun h => hacy (h ▸ htid)
      have h2 : R ∉ descFks doc fuel (jsStr c.selectorId) := fun h =>
        hacy ((mem_descFks_succ doc fuel R R).mpr ⟨c, hc, hs, Or.inr h⟩)
      simp [hs, count_clear_untouched doc e M R hM hMfk fuel _ h1 h2]
    · simp [hs]
  show (docFilterFk (modifyIdx doc e clearTag) R).foldl _ 0
    = (docFilterFk doc R).foldl _ 0 - 1
  rw [descCount_foldl_sum, descCount_foldl_sum]
  simp only [Nat.zero_add]
  have hm1 : ∀ c ∈ (doc.take e).filter (fun b => b.fk == some R),
      c ∈ docFilterFk doc R := by
    intro c hc
    show c ∈ doc.filter (fun b => b.fk == some R)
    rw [show doc.filter (fun b => b.fk == some R) = _ from hd]
    exact List.mem_append_left _ hc
  have hm2 : ∀ c ∈ (doc.drop (e+1)).filter (fun b => b.fk == some R),
      c ∈ docFilterFk doc R := by
    intro c hc
    show c ∈ doc.filter (fun b => b.fk == some R)
    rw [show doc.filter (fun b => b.fk == some R) = _ from hd]
    exact List.mem_append_right _ (List.mem_cons_of_mem _ hc)
  have hdd : docFilterFk doc R
      = (doc.take e).filter (fun b => b.fk == some R)
        ++ M :: ((doc.drop (e+1)).filter (fun b => b.fk == some R)) := hd
  have hdd' : docFilterFk (modifyIdx doc e clearTag) R
      = (doc.take e).filter (fun b => b.fk == some R)
        ++ ((doc.drop (e+1)).filter (fun b => b.fk == some R)) := hd'
  rw [hdd, hdd']
  rw [List.map_append, List.map_append, List.sum_append, List.sum_append,
    List.map_cons, List.sum_cons]
  have hmap1 : ((doc.take e).filter (fun b => b.fk == some R)).map
      (fun child => 1 + (if child.status.isSome then
        getDecendentsNumber (modifyIdx doc e clearTag) fuel (jsStr child.selectorId) else 0))
      = ((doc.take e).filter (fun b => b.fk == some R)).map
      (fun child => 1 + (if child.status.isSome then
        getDecendentsNumber doc fuel (jsStr child.selectorId) else 0)) :=
    List.map_congr_left (fun c hc => hpoint c (hm1 c hc))
  have hmap2 : ((doc.drop (e+1)).filter (fun b => b.fk == some R)).map
      (fun child => 1 + (if child.status.isSome then
        getDecendentsNumber (modifyIdx doc e clearTag) fuel (jsStr child.selectorId) else 0))
      = ((doc.drop (e+1)).filter (fun b => b.fk == some R)).map
      (fun child => 1 + (if child.status.isSome then
        getDecendentsNumber doc fuel (jsStr child.selectorId) else 0)) :=
    List.map_congr_left (fun c hc => hpoint c (hm2 c hc))
  rw [hmap1, hmap2]
  have hMs : (if M.status.isSome then
      getDecendentsNumber doc fuel (jsStr M.selectorId) else 0) = 0 := by
    rw [hMst]
    rfl
  rw [hMs]
  omega

theorem jsStr_some (s : String) : jsStr (some s) = s := rfl

theorem findToogleRootIndex_zero (doc : List Block) (fk : Option String) :
    findToogleRootIndex doc 0 fk =
      if (getL doc 0).selectorId.isSome ∧ fk = (getL doc 0).selectorId then 0 else -1 := rfl

theorem findToogleRootIndex_succ (doc : List Block) (n : Nat) (fk : Option String) :
    findToogleRootIndex doc (n+1) fk =
      if (getL doc (n+1)).selectorId.isSome ∧ fk = (getL doc (n+1)).selectorId then
        ((n+1 : Nat) : Int)
      else findToogleRootIndex doc n fk := rfl

/-- The backward root search resolves to the nearest position at or
below the entry carrying the toggle selector with the sought id. -/
theorem findToogleRootIndex_eq (doc : List Block) (R : String) :
    ∀ e pIdx : Nat, pIdx ≤ e → (getL doc pIdx).selectorId = some R →
      (∀ j, pIdx < j → j ≤ e → (getL doc j).selectorId ≠ some R) →
      findToogleRootIndex doc e (some R) = (pIdx : Int) := by
  intro e
  induction e with
  | zero =>
    intro pIdx hpe hroot _
    have h0 : pIdx = 0 := by omega
    subst h0
    rw [findToogleRootIndex_zero, if_pos ⟨by rw [hroot]; rfl, by rw [hroot]⟩]
    simp
  | succ n ih =>
    intro pIdx hpe hroot hnone
    by_cases hcase : pIdx = n+1
    · subst hcase
      rw [findToogleRootIndex_succ, if_pos ⟨by rw [hroot]; rfl, by rw [hroot]⟩]
    · have hpn : pIdx ≤ n := by omega
      have hnr : (getL doc (n+1)).selectorId ≠ some R := hnone (n+1) (by omega) (le_refl _)
      rw [findToogleRootIndex_succ, if_neg]
      · exact ih pIdx hpn hroot (fun j h1 h2 => hnone j h1 (by omega))
      · rintro ⟨h1, h2⟩
        exact hnr h2.symm

/-- C4 (amended): extracting a plain tagged member M (one that is not
itself a nested toggle root) of toggle R with current descendant count
N first relocates M to position rootPos + N and then strips M's tag,
after which R's descendant count is N - 1; when M is the single
remaining member (N = 1, M at rootPos + 1), only the tag is stripped
and no relocation occurs.  When M is itself a nested toggle root the
count drops by more than one (see the counterexample). -/
theorem extractBlock_amended (st : EngineState) (e pIdx : Nat) (M : Block) (R : String)
    (fuel : Nat)
    (hM : st.doc.get? e = some M)
    (hfk : M.fk = some R) (hitem : M.itemClass = true) (hst : M.status = none)
    (hpe : pIdx ≤ e)
    (hroot : (getL st.doc pIdx).selectorId = some R)
    (hnone : ∀ j, pIdx < j → j ≤ e → (getL st.doc j).selectorId ≠ some R)
    (hacy : R ∉ descFks st.doc (fuel+1) R)
    (hIn : M.id ∈ st.itemsId) :
    (1 < getDecendentsNumber st.doc (fuel+1) R →
      pIdx + getDecendentsNumber st.doc (fuel+1) R < st.doc.length →
      (extractBlock (fuel+1) st e).doc
          = modifyIdx (listMove st.doc e (pIdx + getDecendentsNumber st.doc (fuel+1) R))
              (pIdx + getDecendentsNumber st.doc (fuel+1) R) clearTag
        ∧ (extractBlock (fuel+1) st e).doc.get?
              (pIdx + getDecendentsNumber st.doc (fuel+1) R) = some (clearTag M)
        ∧ (extractBlock (fuel+1) st e).itemsId = st.itemsId
        ∧ getDecendentsNumber (extractBlock (fuel+1) st e).doc (fuel+1) R
            = getDecendentsNumber st.doc (fuel+1) R - 1)
    ∧ (getDecendentsNumber st.doc (fuel+1) R = 1 → e = pIdx + 1 →
        (extractBlock (fuel+1) st e).doc = modifyIdx st.doc e clearTag
        ∧ (extractBlock (fuel+1) st e).itemsId = st.itemsId
        ∧ getDecendentsNumber (extractBlock (fuel+1) st e).doc (fuel+1) R = 0) := by
  have hgetL : getL st.doc e = M := by
    unfold getL
    rw [hM]
  have hfind : findToogleRootIndex st.doc e (some R) = (pIdx : Int) :=
    findToogleRootIndex_eq st.doc R e pIdx hpe hroot hnone
  have he : e < st.doc.length := by
    by_contra hcon
    rw [List.get?_eq_none.mpr (by omega)] at hM
    exact Option.noConfusion hM
  have hcont : st.itemsId.contains M.id = true := List.elem_iff.mpr hIn
  set N := getDecendentsNumber st.doc (fuel+1) R with hN
  constructor
  · intro hN1 hdst
    have hcast : ((pIdx : Int) + (N : Int)) = ((pIdx + N : Nat) : Int) := by push_cast; ring
    have hmove : hostMove st.doc ((pIdx : Int) + (N : Int)) (e : Int)
        = listMove st.doc e (pIdx + N) := by
      unfold hostMove
      rw [if_pos]
      · rw [Int.toNat_natCast, hcast, Int.toNat_natCast]
      · exact ⟨by omega, by exact_mod_cast he, by omega,
          by rw [hcast]; exact_mod_cast hdst⟩
    have hmv2 : listMove st.doc e (pIdx + N) = insertIdxL (eraseIdxL st.doc e) (pIdx + N) M := by
      unfold listMove
      rw [hM]
    have hMget : (listMove st.doc e (pIdx + N)).get? (pIdx + N) = some M := by
      rw [hmv2, insertIdxL_get_self]
      rw [eraseIdxL_length _ _ he]
      omega
    have hgetdst : getBlockAt (listMove st.doc e (pIdx + N)) ((pIdx : Int) + (N : Int)) = M := by
      unfold getBlockAt
      rw [if_pos (by omega), hcast, Int.toNat_natCast]
      unfold getL
      rw [hMget]
    have hres : extractBlock (fuel+1) st e
        = removeAttributesFromNewBlock { st with doc := listMove st.doc e (pIdx + N) }
            ((pIdx : Int) + (N : Int)) := by
      simp only [extractBlock, hgetL, hitem, hfk, jsStr_some, hfind, ← hN]
      rw [if_pos trivial]
      rw [if_pos (by exact_mod_cast Nat.zero_le pIdx : (0 : Int) ≤ (pIdx : Int))]
      rw [if_pos hN1, hmove]
    have hrem : removeAttributesFromNewBlock { st with doc := listMove st.doc e (pIdx + N) }
          ((pIdx : Int) + (N : Int))
        = { doc := modifyIdx (listMove st.doc e (pIdx + N)) (pIdx + N) clearTag,
            itemsId := st.itemsId } := by
      simp only [removeAttributesFromNewBlock, hgetdst, hcont]
      rw [if_pos trivial, if_pos (by omega : (0 : Int) ≤ (pIdx : Int) + (N : Int))]
      rw [hcast, Int.toNat_natCast]
      rfl
    have hperm : (modifyIdx (listMove st.doc e (pIdx + N)) (pIdx + N) clearTag).Perm
        (modifyIdx st.doc e clearTag) :=
      modify_listMove_perm st.doc e (pIdx + N) M hM (by omega) he clearTag
    refine ⟨by rw [hres, hrem], ?_, by rw [hres, hrem], ?_⟩
    · rw [hres, hrem]
      show (modifyIdx (listMove st.doc e (pIdx + N)) (pIdx + N) clearTag).get? (pIdx + N)
        = some (clearTag M)
      rw [modifyIdx_get, if_pos rfl, hMget]
      rfl
    · rw [hres, hrem]
      show getDecendentsNumber (modifyIdx (listMove st.doc e (pIdx + N)) (pIdx + N) clearTag)
          (fuel+1) R = N - 1
      rw [getDecendentsNumber_perm _ _ hperm (fuel+1) R]
      exact count_clear_member st.doc e M R fuel hM hfk hst hacy
  · intro hN1 hepx
    have hcast1 : ((pIdx : Int) + (N : Int)) = ((e : Nat) : Int) := by
      rw [hN1, hepx]
      push_cast
      ring
    have hgetdst : getBlockAt st.doc ((pIdx : Int) + (N : Int)) = M := by
      unfold getBlockAt
      rw [if_pos (by omega), hcast1, Int.toNat_natCast]
      exact hgetL
    have hres : extractBlock (fuel+1) st e
        = removeAttributesFromNewBlock st ((pIdx : Int) + (N : Int)) := by
      simp only [extractBlock, hgetL, hitem, hfk, jsStr_some, hfind, ← hN]
      rw [if_pos trivial]
      rw [if_pos (by exact_mod_cast Nat.zero_le pIdx : (0 : Int) ≤ (pIdx : Int))]
      rw [if_neg (by omega)]
    have hrem : removeAttributesFromNewBlock st ((pIdx : Int) + (N : Int))
        = { doc := modifyIdx st.doc e clearTag, itemsId := st.itemsId } := by
      simp only [removeAttributesFromNewBlock, hgetdst, hcont]
      rw [if_pos trivial, if_pos (by omega : (0 : Int) ≤ (pIdx : Int) + (N : Int))]
      rw [hcast1, Int.toNat_natCast, hepx]
      rfl
    refine ⟨by rw [hres, hrem], by rw [hres, hrem], ?_⟩
    rw [hres, hrem]
    show getDecendentsNumber (modifyIdx st.doc e clearTag) (fuel+1) R = 0
    rw [count_clear_member st.doc e M R fuel hM hfk hst hacy, ← hN, hN1]

/-- Witness for C4 at a concrete input: toggle `r` at position 0 with
two plain members; extracting the first member relocates it to position
2, strips its tag, and drops the count to 1. -/
theorem extractBlock_amended_witness :
    (extractBlock 2 { doc := [rootBlockR, childA, childB], itemsId := ["b1"] } 1).doc
        = modifyIdx (listMove [rootBlockR, childA, childB] 1 2) 2 clearTag
      ∧ (extractBlock 2 { doc := [rootBlockR, childA, childB], itemsId := ["b1"] } 1).doc.get? 2
          = some (clearTag childA)
      ∧ (extractBlock 2 { doc := [rootBlockR, childA, childB], itemsId := ["b1"] } 1).itemsId
          = ["b1"]
      ∧ getDecendentsNumber
          (extractBlock 2 { doc := [rootBlockR, childA, childB], itemsId := ["b1"] } 1).doc
          2 "r" = getDecendentsNumber [rootBlockR, childA, childB] 2 "r" - 1 :=
  (extractBlock_amended { doc := [rootBlockR, childA, childB], itemsId := ["b1"] } 1 0
      childA "r" 1 (by decide) (by decide) (by decide) (by decide) (by decide) (by decide)
      (by
        intro j h1 h2
        have hj : j = 1 := by omega
        subst hj
        decide)
      (by decide) (by decide)).1 (by decide) (by decide)

-- ------------------------------------------------------------------
-- C3
-- ------------------------------------------------------------------

theorem getL_fk_some_lt (d : List Block) (j : Nat) (t : String)
    (h : (getL d j).fk = some t) : j < d.length := by
  by_contra hcon
  unfold getL at h
  rw [List.get?_eq_none.mpr (by omega)] at h
  simp [placeholderBlock] at h

theorem getL_modify_other (d : List Block) (i j : Nat) (f : Block → Block) (hij : i ≠ j) :
    getL (modifyIdx d i f) j = getL d j := by
  unfold getL
  rw [modifyIdx_get, if_neg hij]

theorem getL_modify_self (d : List Block) (j : Nat) (f : Block → Block) (hj : j < d.length) :
    getL (modifyIdx d j f) j = f (getL d j) := by
  obtain ⟨b, hb⟩ : ∃ b, d.get? j = some b := by
    cases h : d.get? j with
    | none =>
      rw [List.get?_eq_none] at h
      omega
    | some b => exact ⟨b, rfl⟩
  unfold getL
  rw [modifyIdx_get, if_pos rfl, hb]
  rfl

theorem modify_hidden_strip (d : List Block) (i : Nat) (x : Bool) :
    (modifyIdx d i (fun b => { b with hidden := x })).map stripHidden
      = d.map stripHidden := by
  induction d generalizing i with
  | nil => simp [modifyIdx]
  | cons b bs ih =>
    cases i with
    | zero => simp [modifyIdx, stripHidden]
    | succ n => simp [modifyIdx, ih]

theorem modifyIdx_oob (d : List Block) (i : Nat) (f : Block → Block)
    (h : d.length ≤ i) : modifyIdx d i f = d := by
  induction d generalizing i with
  | nil => simp [modifyIdx]
  | cons b bs ih =>
    cases i with
    | zero => simp at h
    | succ n => simp [modifyIdx, ih n (by simpa using h)]

theorem hideAndShow_zero (d : List Block) (fk : String) (v : Option String) :
    hideAndShowBlocks 0 d fk v = d := rfl

theorem hideAndShow_succ (fuel : Nat) (d : List Block) (fk : String) (v : Option String) :
    hideAndShowBlocks (fuel+1) d fk v = (childIdxs d fk).foldl (hideStep fuel v) d := rfl

theorem hideMark_strip (v : Option String) (acc : List Block) (i : Nat) :
    (hideMark v acc i).map stripHidden = acc.map stripHidden :=
  modify_hidden_strip acc i _

theorem getL_hideMark_other (v : Option String) (acc : List Block) (i j : Nat)
    (hij : i ≠ j) : getL (hideMark v acc i) j = getL acc j :=
  getL_modify_other acc i j _ hij

theorem getL_hideMark_self (v : Option String) (acc : List Block) (i : Nat)
    (hi : i < acc.length) :
    getL (hideMark v acc i) i = { getL acc i with hidden := v == some "closed" } :=
  getL_modify_self acc i _ hi

/-- The visibility pass only writes hidden flags. -/
theorem hideAndShow_strip : ∀ (fuel : Nat) (d : List Block) (fk : String) (v : Option String),
    (hideAndShowBlocks fuel d fk v).map stripHidden = d.map stripHidden := by
  intro fuel
  induction fuel with
  | zero => intro d fk v; rfl
  | succ f ih =>
    intro d fk v
    rw [hideAndShow_succ]
    have aux : ∀ (l : List Nat) (d0 : List Block),
        (l.foldl (hideStep f v) d0).map stripHidden = d0.map stripHidden := by
      intro l
      induction l with
      | nil => intro d0; rfl
      | cons i rest ihl =>
        intro d0
        rw [List.foldl_cons, ihl]
        simp only [hideStep]
        cases hsel : (getL (hideMark v d0 i) i).selectorId with
        | none => exact hideMark_strip v d0 i
        | some tid => rw [ih, hideMark_strip]
    exact aux _ d

theorem hideStep_strip (f : Nat) (v : Option String) (d0 : List Block) (i : Nat) :
    (hideStep f v d0 i).map stripHidden = d0.map stripHidden := by
  simp only [hideStep]
  cases hsel : (getL (hideMark v d0 i) i).selectorId with
  | none => exact hideMark_strip v d0 i
  | some tid => rw [hideAndShow_strip, hideMark_strip]

theorem strip_length {d1 d2 : List Block}
    (h : d1.map stripHidden = d2.map stripHidden) : d1.length = d2.length := by
  simpa using congrArg List.length h

theorem strip_map_getL {d1 d2 : List Block}
    (h : d1.map stripHidden = d2.map stripHidden) (j : Nat) :
    stripHidden (getL d1 j) = stripHidden (getL d2 j) := by
  have hlen : d1.length = d2.length := strip_length h
  have hq := congrArg (fun l => l.get? j) h
  simp only [List.get?_map] at hq
  unfold getL
  cases h1 : d1.get? j with
  | none =>
    have h2 : d2.get? j = none := by
      rw [List.get?_eq_none] at h1 ⊢
      omega
    rw [h2]
  | some b =>
    rw [h1] at hq
    cases h2 : d2.get? j with
    | none =>
      rw [h2] at hq
      simp at hq
    | some c =>
      rw [h2] at hq
      simpa using hq

theorem strip_getL_fk {d1 d2 : List Block}
    (h : d1.map stripHidden = d2.map stripHidden) (j : Nat) :
    (getL d1 j).fk = (getL d2 j).fk := by
  have hc := congrArg Block.fk (strip_map_getL h j)
  exact hc

theorem strip_getL_selectorId {d1 d2 : List Block}
    (h : d1.map stripHidden = d2.map stripHidden) (j : Nat) :
    (getL d1 j).selectorId = (getL d2 j).selectorId := by
  have hc := congrArg Block.selectorId (strip_map_getL h j)
  exact hc

theorem strip_getL_status {d1 d2 : List Block}
    (h : d1.map stripHidden = d2.map stripHidden) (j : Nat) :
    (getL d1 j).status = (getL d2 j).status := by
  have hc := congrArg Block.status (strip_map_getL h j)
  exact hc

theorem strip_childIdxs {d1 d2 : List Block}
    (h : d1.map stripHidden = d2.map stripHidden) (fk : String) :
    childIdxs d1 fk = childIdxs d2 fk := by
  unfold childIdxs
  rw [strip_length h]
  apply List.filter_congr
  intro i _
  rw [strip_getL_fk h i]

theorem strip_memberIdxs {d1 d2 : List Block}
    (h : d1.map stripHidden = d2.map stripHidden) :
    ∀ (fuel : Nat) (fk : String), memberIdxs d1 fuel fk = memberIdxs d2 fuel fk := by
  intro fuel
  induction fuel with
  | zero => intro fk; rfl
  | succ f ih =>
    intro fk
    show (((childIdxs d1 fk).map _).flatten : List Nat) = ((childIdxs d2 fk).map _).flatten
    rw [strip_childIdxs h fk]
    congr 1
    apply List.map_congr_left
    intro i _
    rw [strip_getL_selectorId h i]
    cases (getL d2 i).selectorId with
    | none => rfl
    | some tid =>
      show i :: memberIdxs d1 f tid = i :: memberIdxs d2 f tid
      rw [ih]

theorem strip_reachFks {d1 d2 : List Block}
    (h : d1.map stripHidden = d2.map stripHidden) :
    ∀ (fuel : Nat) (fk : String), reachFks d1 fuel fk = reachFks d2 fuel fk := by
  intro fuel
  induction fuel with
  | zero => intro fk; rfl
  | succ f ih =>
    intro fk
    show (((childIdxs d1 fk).map _).flatten : List String) = ((childIdxs d2 fk).map _).flatten
    rw [strip_childIdxs h fk]
    congr 1
    apply List.map_congr_left
    intro i _
    rw [strip_getL_selectorId h i]
    cases (getL d2 i).selectorId with
    | none => rfl
    | some tid =>
      show tid :: reachFks d1 f tid = tid :: reachFks d2 f tid
      rw [ih]

theorem mem_childIdxs (d : List Block) (fk : String) (j : Nat) :
    j ∈ childIdxs d fk ↔ j < d.length ∧ (getL d j).fk = some fk := by
  unfold childIdxs
  rw [List.mem_filter, List.mem_range]
  constructor
  · rintro ⟨h1, h2⟩
    exact ⟨h1, by simpa using h2⟩
  · rintro ⟨h1, h2⟩
    exact ⟨h1, by simpa using h2⟩

theorem childIdxs_nodup (d : List Block) (fk : String) : (childIdxs d fk).Nodup :=
  (List.nodup_range _).filter _

theorem mem_reachFks_succ (d : List Block) (f : Nat) (fk t : String) :
    t ∈ reachFks d (f+1) fk ↔
      ∃ i ∈ childIdxs d fk, ∃ tid, (getL d i).selectorId = some tid ∧
        (t = tid ∨ t ∈ reachFks d f tid) := by
  show t ∈ ((childIdxs d fk).map _).flatten ↔ _
  rw [List.mem_flatten]
  constructor
  · rintro ⟨l, hl, ht⟩
    rw [List.mem_map] at hl
    obtain ⟨i, hi, hieq⟩ := hl
    cases hsel : (getL d i).selectorId with
    | none =>
      rw [hsel] at hieq
      rw [← hieq] at ht
      simp at ht
    | some tid =>
      rw [hsel] at hieq
      rw [← hieq] at ht
      rcases List.mem_cons.mp ht with ht' | ht'
      · exact ⟨i, hi, tid, hsel, Or.inl ht'⟩
      · exact ⟨i, hi, tid, hsel, Or.inr ht'⟩
  · rintro ⟨i, hi, tid, hsel, ht⟩
    refine ⟨tid :: reachFks d f tid, ?_, ?_⟩
    · rw [List.mem_map]
      exact ⟨i, hi, by rw [hsel]⟩
    · rcases ht with ht | ht
      · rw [ht]
        exact List.mem_cons_self _ _
      · exact List.mem_cons_of_mem _ ht

theorem mem_memberIdxs_succ (d : List Block) (f : Nat) (fk : String) (j : Nat) :
    j ∈ memberIdxs d (f+1) fk ↔
      ∃ i ∈ childIdxs d fk, (j = i ∨ ∃ tid, (getL d i).selectorId = some tid ∧
        j ∈ memberIdxs d f tid) := by
  show j ∈ ((childIdxs d fk).map _).flatten ↔ _
  rw [List.mem_flatten]
  constructor
  · rintro ⟨l, hl, ht⟩
    rw [List.mem_map] at hl
    obtain ⟨i, hi, hieq⟩ := hl
    rw [← hieq] at ht
    rcases List.mem_cons.mp ht with ht' | ht'
    · exact ⟨i, hi, Or.inl ht'⟩
    · cases hsel : (getL d i).selectorId with
      | none =>
        rw [hsel] at ht'
        simp at ht'
      | some tid =>
        rw [hsel] at ht'
        exact ⟨i, hi, Or.inr ⟨tid, hsel, ht'⟩⟩
  · rintro ⟨i, hi, hcase⟩
    refine ⟨i :: (match (getL d i).selectorId with
        | some tid => memberIdxs d f tid
        | none => []), ?_, ?_⟩
    · rw [List.mem_map]
      exact ⟨i, hi, rfl⟩
    · rcases hcase with hj | ⟨tid, hsel, hj⟩
      · rw [hj]
        exact List.mem_cons_self _ _
      · apply List.mem_cons_of_mem
        rw [hsel]
        exact hj

/-- Closing never unhides: a block already hidden stays hidden through
a closed visibility pass. -/
theorem hideAndShow_closed_mono : ∀ (fuel : Nat) (d : List Block) (fk : String) (j : Nat),
    (getL d j).hidden = true →
    (getL (hideAndShowBlocks fuel d fk (some "closed")) j).hidden = true := by
  intro fuel
  induction fuel with
  | zero =>
    intro d fk j h
    exact h
  | succ f ih =>
    intro d fk j h
    rw [hideAndShow_succ]
    have aux : ∀ (l : List Nat) (d0 : List Block), (getL d0 j).hidden = true →
        (getL (l.foldl (hideStep f (some "closed")) d0) j).hidden = true := by
      intro l
      induction l with
      | nil =>
        intro d0 h0
        exact h0
      | cons i rest ihl =>
        intro d0 h0
        rw [List.foldl_cons]
        apply ihl
        have hacc1 : (getL (hideMark (some "closed") d0 i) j).hidden = true := by
          by_cases hij : i = j
          · subst hij
            by_cases hi : i < d0.length
            · rw [getL_hideMark_self _ _ _ hi]
              simp
            · unfold hideMark
              rw [modifyIdx_oob _ _ _ (by omega)]
              exact h0
          · rw [getL_hideMark_other _ _ _ _ hij]
            exact h0
        simp only [hideStep]
        cases hsel : (getL (hideMark (some "closed") d0 i) i).selectorId with
        | none => exact hacc1
        | some tid =>
          have hval : (if (some "closed" : Option String) == some "closed"
              then (some "closed" : Option String)
              else (getL (hideMark (some "closed") d0 i) i).status) = some "closed" := by
            rfl
          rw [hval]
          exact ih _ tid j hacc1
    exact aux _ d h

/-- Fold version of the closed monotonicity. -/
theorem hideFold_closed_mono (f : Nat) (l : List Nat) (d0 : List Block) (j : Nat)
    (h : (getL d0 j).hidden = true) :
    (getL (l.foldl (hideStep f (some "closed")) d0) j).hidden = true := by
  induction l generalizing d0 with
  | nil => exact h
  | cons i rest ihl =>
    rw [List.foldl_cons]
    apply ihl
    have hacc1 : (getL (hideMark (some "closed") d0 i) j).hidden = true := by
      by_cases hij : i = j
      · subst hij
        by_cases hi : i < d0.length
        · rw [getL_hideMark_self _ _ _ hi]
          simp
        · unfold hideMark
          rw [modifyIdx_oob _ _ _ (by omega)]
          exact h
      · rw [getL_hideMark_other _ _ _ _ hij]
        exact h
    simp only [hideStep]
    cases hsel : (getL (hideMark (some "closed") d0 i) i).selectorId with
    | none => exact hacc1
    | some tid =>
      have hval : (if (some "closed" : Option String) == some "closed"
          then (some "closed" : Option String)
          else (getL (hideMark (some "closed") d0 i) i).status) = some "closed" := by
        rfl
      rw [hval]
      exact hideAndShow_closed_mono f _ tid j hacc1

/-- Fold no-touch: a block whose parent-link differs from every member
position's tag target and from every reachable nested key is untouched
by the fold of the visibility pass. -/
theorem hideFold_untouched (f : Nat) (v : Option String) (base : List Block)
    (IH : ∀ (d : List Block) (fk2 : String) (v2 : Option String) (j2 : Nat),
      (getL d j2).fk ≠ some fk2 →
      (∀ t ∈ reachFks d f fk2, (getL d j2).fk ≠ some t) →
      getL (hideAndShowBlocks f d fk2 v2) j2 = getL d j2) :
    ∀ (l : List Nat) (d0 : List Block) (j : Nat),
      d0.map stripHidden = base.map stripHidden →
      j ∉ l →
      (∀ i ∈ l, ∀ tid, (getL base i).selectorId = some tid →
        (getL base j).fk ≠ some tid ∧
          ∀ t ∈ reachFks base f tid, (getL base j).fk ≠ some t) →
      getL (l.foldl (hideStep f v) d0) j = getL d0 j := by
  intro l
  induction l with
  | nil =>
    intro d0 j _ _ _
    rfl
  | cons i rest ihl =>
    intro d0 j hd0 hjl hcond
    rw [List.foldl_cons]
    have hij : i ≠ j := fun h => hjl (h ▸ List.mem_cons_self i rest)
    have hstep : getL (hideStep f v d0 i) j = getL d0 j := by
      simp only [hideStep]
      cases hsel : (getL (hideMark v d0 i) i).selectorId with
      | none => exact getL_hideMark_other v d0 i j hij
      | some tid =>
        have hstrip1 : (hideMark v d0 i).map stripHidden = base.map stripHidden := by
          rw [hideMark_strip]
          exact hd0
        have hselbase : (getL base i).selectorId = some tid := by
          rw [← strip_getL_selectorId hstrip1 i]
          exact hsel
        obtain ⟨hc1, hc2⟩ := hcond i (List.mem_cons_self i rest) tid hselbase
        have hfkj : (getL (hideMark v d0 i) j).fk = (getL base j).fk :=
          strip_getL_fk hstrip1 j
        have hunt := IH (hideMark v d0 i) tid
          (if v == some "closed" then v else (getL (hideMark v d0 i) i).status) j
          (by rw [hfkj]; exact hc1)
          (by
            intro t ht
            rw [hfkj]
            exact hc2 t (by rwa [strip_reachFks hstrip1 f tid] at ht))
        rw [hunt]
        exact getL_hideMark_other v d0 i j hij
    have hd1 : (hideStep f v d0 i).map stripHidden = base.map stripHidden := by
      rw [hideStep_strip]
      exact hd0
    have hjrest : j ∉ rest := fun h => hjl (List.mem_cons_of_mem i h)
    rw [ihl (hideStep f v d0 i) j hd1 hjrest
      (fun i' hi' tid hsel => hcond i' (List.mem_cons_of_mem i hi') tid hsel)]
    exact hstep

/-- Function no-touch: a block whose parent-link is neither the pass's
root id nor any reachable nested key is untouched by the visibility
pass. -/
theorem hideAndShow_untouched : ∀ (fuel : Nat) (d : List Block) (fk : String)
    (v : Option String) (j : Nat),
    (getL d j).fk ≠ some fk →
    (∀ t ∈ reachFks d fuel fk, (getL d j).fk ≠ some t) →
    getL (hideAndShowBlocks fuel d fk v) j = getL d j := by
  intro fuel
  induction fuel with
  | zero =>
    intro d fk v j _ _
    rfl
  | succ f ih =>
    intro d fk v j h1 h2
    rw [hideAndShow_succ]
    apply hideFold_untouched f v d ih (childIdxs d fk) d j rfl
    · intro hjmem
      exact h1 ((mem_childIdxs d fk j).mp hjmem).2
    · intro i hi tid hsel
      refine ⟨?_, ?_⟩
      · exact h2 tid ((mem_reachFks_succ d f fk tid).mpr ⟨i, hi, tid, hsel, Or.inl rfl⟩)
      · intro t ht
        exact h2 t ((mem_reachFks_succ d f fk t).mpr ⟨i, hi, tid, hsel, Or.inr ht⟩)

/-- Fold write: a member position whose tag target is fresh for every
spawned nested pass ends with its hidden flag set by the pass's value,
exactly once. -/
theorem hideFold_writes (f : Nat) (v : Option String) (base : List Block) :
    ∀ (l : List Nat) (d0 : List Block) (j : Nat) (tj : String),
      d0.map stripHidden = base.map stripHidden →
      l.Nodup → j ∈ l → j < base.length →
      (getL base j).fk = some tj →
      (∀ i ∈ l, ∀ tid, (getL base i).selectorId = some tid →
        tj ≠ tid ∧ tj ∉ reachFks base f tid) →
      (getL (l.foldl (hideStep f v) d0) j).hidden = (v == some "closed") := by
  intro l
  induction l with
  | nil =>
    intro d0 j tj _ _ hj _ _ _
    simp at hj
  | cons i rest ihl =>
    intro d0 j tj hd0 hnd hjl hjlen hfkj hcond
    rw [List.foldl_cons]
    by_cases hij : j = i
    · subst hij
      have hjlen0 : j < d0.length := by
        rw [strip_length hd0]
        exact hjlen
      have hmarked : (getL (hideMark v d0 j) j).hidden = (v == some "closed") := by
        rw [getL_hideMark_self _ _ _ hjlen0]
      have hstep : (getL (hideStep f v d0 j) j).hidden = (v == some "closed") := by
        simp only [hideStep]
        cases hsel : (getL (hideMark v d0 j) j).selectorId with
        | none => exact hmarked
        | some tid =>
          have hstrip1 : (hideMark v d0 j).map stripHidden = base.map stripHidden := by
            rw [hideMark_strip]
            exact hd0
          have hselbase : (getL base j).selectorId = some tid := by
            rw [← strip_getL_selectorId hstrip1 j]
            exact hsel
          obtain ⟨hc1, hc2⟩ := hcond j (List.mem_cons_self _ _) tid hselbase
          have hfk1 : (getL (hideMark v d0 j) j).fk = some tj := by
            rw [strip_getL_fk hstrip1 j]
            exact hfkj
          have hunt := hideAndShow_untouched f (hideMark v d0 j) tid
            (if v == some "closed" then v else (getL (hideMark v d0 j) j).status) j
            (by
              rw [hfk1]
              intro hcontr
              exact hc1 (Option.some.inj hcontr))
            (by
              intro t ht
              rw [hfk1]
              intro hcontr
              have htt : tj = t := Option.some.inj hcontr
              subst htt
              exact hc2 (by rwa [strip_reachFks hstrip1 f tid] at ht))
          rw [hunt]
          exact hmarked
      have hd1 : (hideStep f v d0 j).map stripHidden = base.map stripHidden := by
        rw [hideStep_strip]
        exact hd0
      have hjrest : j ∉ rest := (List.nodup_cons.mp hnd).1
      have hrest := hideFold_untouched f v base (hideAndShow_untouched f) rest
        (hideStep f v d0 j) j hd1 hjrest
        (by
          intro i' hi' tid hsel
          obtain ⟨hc1, hc2⟩ := hcond i' (List.mem_cons_of_mem _ hi') tid hsel
          refine ⟨?_, ?_⟩
          · rw [hfkj]
            intro hcontr
            exact hc1 (Option.some.inj hcontr)
          · intro t ht
            rw [hfkj]
            intro hcontr
            have htt : tj = t := Option.some.inj hcontr
            subst htt
            exact hc2 ht)
      rw [hrest]
      exact hstep
    · have hjrest : j ∈ rest := by
        rcases List.mem_cons.mp hjl with h | h
        · exact absurd h hij
        · exact h
      have hd1 : (hideStep f v d0 i).map stripHidden = base.map stripHidden := by
        rw [hideStep_strip]
        exact hd0
      exact ihl (hideStep f v d0 i) j tj hd1 (List.nodup_cons.mp hnd).2 hjrest hjlen hfkj
        (fun i' hi' tid hsel => hcond i' (List.mem_cons_of_mem _ hi') tid hsel)

theorem hideFold_strip (f : Nat) (v : Option String) :
    ∀ (l : List Nat) (d0 : List Block),
      (l.foldl (hideStep f v) d0).map stripHidden = d0.map stripHidden := by
  intro l
  induction l with
  | nil =>
    intro d0
    rfl
  | cons i rest ihl =>
    intro d0
    rw [List.foldl_cons, ihl, hideStep_strip]

/-- Closing hides every reachable member. -/
theorem hideAndShow_closed_hides : ∀ (fuel : Nat) (d : List Block) (fk : String)
    (j : Nat), j ∈ memberIdxs d fuel fk →
    (getL (hideAndShowBlocks fuel d fk (some "closed")) j).hidden = true := by
  intro fuel
  induction fuel with
  | zero =>
    intro d fk j hj
    simp [memberIdxs] at hj
  | succ f ih =>
    intro d fk j hj
    rw [hideAndShow_succ]
    rw [mem_memberIdxs_succ] at hj
    obtain ⟨i0, hi0, hcase⟩ := hj
    have aux : ∀ (l : List Nat) (d0 : List Block),
        d0.map stripHidden = d.map stripHidden →
        ∀ i0, i0 ∈ l → i0 ∈ childIdxs d fk →
        (j = i0 ∨ ∃ tid, (getL d i0).selectorId = some tid ∧ j ∈ memberIdxs d f tid) →
        (getL (l.foldl (hideStep f (some "closed")) d0) j).hidden = true := by
      intro l
      induction l with
      | nil =>
        intro d0 _ i0 hi0l _ _
        simp at hi0l
      | cons i rest ihl =>
        intro d0 hd0 i0 hi0l hi0c hcase
        rw [List.foldl_cons]
        by_cases heq : i0 = i
        · subst heq
          apply hideFold_closed_mono
          have hstrip1 : (hideMark (some "closed") d0 i0).map stripHidden
              = d.map stripHidden := by
            rw [hideMark_strip]
            exact hd0
          rcases hcase with hj0 | ⟨tid, hsel, hj0⟩
          · subst hj0
            have hjlen0 : j < d0.length := by
              rw [strip_length hd0]
              exact ((mem_childIdxs d fk j).mp hi0c).1
            simp only [hideStep]
            cases hsel2 : (getL (hideMark (some "closed") d0 j) j).selectorId with
            | none =>
              rw [getL_hideMark_self _ _ _ hjlen0]
              simp
            | some tid =>
              have hval : (if (some "closed" : Option String) == some "closed"
                  then (some "closed" : Option String)
                  else (getL (hideMark (some "closed") d0 j) j).status)
                  = some "closed" := rfl
              rw [hval]
              apply hideAndShow_closed_mono
              rw [getL_hideMark_self _ _ _ hjlen0]
              simp
          · simp only [hideStep]
            have hsel1 : (getL (hideMark (some "closed") d0 i0) i0).selectorId
                = some tid := by
              rw [strip_getL_selectorId hstrip1 i0]
              exact hsel
            cases hsel2 : (getL (hideMark (some "closed") d0 i0) i0).selectorId with
            | none =>
              rw [hsel1] at hsel2
              exact absurd hsel2 (by simp)
            | some tid2 =>
              have htid : tid2 = tid := by
                rw [hsel1] at hsel2
                exact (Option.some.inj hsel2).symm
              subst htid
              have hval : (if (some "closed" : Option String) == some "closed"
                  then (some "closed" : Option String)
                  else (getL (hideMark (some "closed") d0 i0) i0).status)
                  = some "closed" := rfl
              rw [hval]
              apply ih
              rw [strip_memberIdxs hstrip1]
              exact hj0
        · have hi0rest : i0 ∈ rest := by
            rcases List.mem_cons.mp hi0l with h | h
            · exact absurd h heq
            · exact h
          have hd1 : (hideStep f (some "closed") d0 i).map stripHidden
              = d.map stripHidden := by
            rw [hideStep_strip]
            exact hd0
          exact ihl (hideStep f (some "closed") d0 i) hd1 i0 hi0rest hi0c hcase
    exact aux (childIdxs d fk) d rfl i0 hi0 hi0 hcase

/-- C3: visibility propagation of `hideAndShowBlocks`.  (i) the pass
never mutates anything but hidden flags — in particular no nested
toggle's stored status; (ii) closing marks every reachable descendant
hidden regardless of nested stored statuses; (iii) opening marks each
direct member visible (when the pass never re-enters its own root key);
and (iv) opening recurses into a nested toggle with that toggle's own
stored status deciding whether the nested members are hidden. -/
theorem hideAndShowBlocks_visibility (doc : List Block) (fk : String) (fuel : Nat) :
    (∀ value, (hideAndShowBlocks fuel doc fk value).map stripHidden
        = doc.map stripHidden)
    ∧ (∀ j ∈ memberIdxs doc fuel fk,
        (getL (hideAndShowBlocks fuel doc fk (some "closed")) j).hidden = true)
    ∧ (∀ f1, fuel = f1 + 1 → fk ∉ reachFks doc (f1+1) fk →
        ∀ j, (getL doc j).fk = some fk →
          (getL (hideAndShowBlocks fuel doc fk (some "open")) j).hidden = false)
    ∧ (∀ f2 iStar tid, fuel = f2 + 2 →
        (getL doc iStar).fk = some fk → (getL doc iStar).selectorId = some tid →
        tid ≠ fk →
        (∀ i ∈ childIdxs doc fk, i ≠ iStar → ∀ s, (getL doc i).selectorId = some s →
          tid ≠ s ∧ tid ∉ reachFks doc (f2+1) s) →
        tid ∉ reachFks doc (f2+1) tid →
        ∀ j, (getL doc j).fk = some tid →
          (getL (hideAndShowBlocks fuel doc fk (some "open")) j).hidden
            = ((getL doc iStar).status == some "closed")) := by
  refine ⟨fun value => hideAndShow_strip fuel doc fk value,
    fun j hj => hideAndShow_closed_hides fuel doc fk j hj, ?_, ?_⟩
  · intro f1 hfuel hA j hfkj
    subst hfuel
    rw [hideAndShow_succ]
    have hres := hideFold_writes f1 (some "open") doc (childIdxs doc fk) doc j fk rfl
      (childIdxs_nodup doc fk)
      ((mem_childIdxs doc fk j).mpr ⟨getL_fk_some_lt doc j fk hfkj, hfkj⟩)
      (getL_fk_some_lt doc j fk hfkj) hfkj
      (by
        intro i hi tid hsel
        refine ⟨?_, ?_⟩
        · intro hcontr
          exact hA ((mem_reachFks_succ doc f1 fk fk).mpr ⟨i, hi, tid, hsel, Or.inl hcontr⟩)
        · intro hcontr2
          exact hA ((mem_reachFks_succ doc f1 fk fk).mpr ⟨i, hi, tid, hsel, Or.inr hcontr2⟩))
    rw [hres]
    rfl
  · intro f2 iStar tid hfuel hfkStar hselStar htidfk hH1 hH2 j hfkj
    subst hfuel
    have hiStarLt : iStar < doc.length := getL_fk_some_lt doc iStar fk hfkStar
    have hiStarMem : iStar ∈ childIdxs doc fk :=
      (mem_childIdxs doc fk iStar).mpr ⟨hiStarLt, hfkStar⟩
    obtain ⟨L1, L2, hsplit⟩ := List.append_of_mem hiStarMem
    have hnodup : (childIdxs doc fk).Nodup := childIdxs_nodup doc fk
    rw [hsplit] at hnodup
    have hiStarNotL1 : iStar ∉ L1 := by
      intro h
      exact (List.nodup_append.mp hnodup).2.2 h (List.mem_cons_self _ _)
    have hiStarNotL2 : iStar ∉ L2 :=
      (List.nodup_cons.mp (List.nodup_append.mp hnodup).2.1).1
    have hmemL : ∀ i, (i ∈ L1 ∨ i ∈ L2) → i ∈ childIdxs doc fk := by
      intro i h
      rw [hsplit]
      rcases h with h | h
      · exact List.mem_append_left _ h
      · exact List.mem_append_right _ (List.mem_cons_of_mem _ h)
    have hjnotin : ∀ i, (i ∈ L1 ∨ i ∈ L2) → j ≠ i := by
      intro i hiside hji
      subst hji
      have := ((mem_childIdxs doc fk j).mp (hmemL j hiside)).2
      rw [hfkj] at this
      exact htidfk (Option.some.inj this)
    have hcondSide : ∀ i, (i ∈ L1 ∨ i ∈ L2) → ∀ s, (getL doc i).selectorId = some s →
        (getL doc j).fk ≠ some s
          ∧ ∀ t ∈ reachFks doc (f2+1) s, (getL doc j).fk ≠ some t := by
      intro i hiside s hsel
      have hine : i ≠ iStar := by
        intro h
        subst h
        rcases hiside with h | h
        · exact hiStarNotL1 h
        · exact hiStarNotL2 h
      obtain ⟨hc1, hc2⟩ := hH1 i (hmemL i hiside) hine s hsel
      refine ⟨?_, ?_⟩
      · rw [hfkj]
        intro hcontr
        exact hc1 (Option.some.inj hcontr)
      · intro t ht
        rw [hfkj]
        intro hcontr
        have htt : tid = t := Option.some.inj hcontr
        subst htt
        exact hc2 ht
    rw [hideAndShow_succ, hsplit, List.foldl_append]
    set d1 := L1.foldl (hideStep (f2+1) (some "open")) doc with hd1def
    have hd1strip : d1.map stripHidden = doc.map stripHidden :=
      hideFold_strip (f2+1) (some "open") L1 doc
    rw [List.foldl_cons]
    set acc1 := hideMark (some "open") d1 iStar with hacc1def
    have hacc1strip : acc1.map stripHidden = doc.map stripHidden := by
      rw [hacc1def, hideMark_strip]
      exact hd1strip
    have hselacc1 : (getL acc1 iStar).selectorId = some tid := by
      rw [strip_getL_selectorId hacc1strip iStar]
      exact hselStar
    have hstep : hideStep (f2+1) (some "open") d1 iStar
        = hideAndShowBlocks (f2+1) acc1 tid
            (if (some "open" : Option String) == some "closed"
             then (some "open" : Option String) else (getL acc1 iStar).status) := by
      simp only [hideStep, ← hacc1def]
      rw [hselacc1]
    have hval : (if (some "open" : Option String) == some "closed"
        then (some "open" : Option String) else (getL acc1 iStar).status)
        = (getL doc iStar).status := by
      have hob : ((some "open" : Option String) == some "closed") = false := rfl
      rw [hob]
      simp [strip_getL_status hacc1strip iStar]
    rw [hstep, hval]
    set d2 := hideAndShowBlocks (f2+1) acc1 tid ((getL doc iStar).status) with hd2def
    have hd2strip : d2.map stripHidden = doc.map stripHidden := by
      rw [hd2def, hideAndShow_strip]
      exact hacc1strip
    have hjd2 : (getL d2 j).hidden = ((getL doc iStar).status == some "closed") := by
      rw [hd2def, hideAndShow_succ]
      apply hideFold_writes f2 ((getL doc iStar).status) acc1 (childIdxs acc1 tid) acc1 j tid
        rfl (childIdxs_nodup acc1 tid)
      · refine (mem_childIdxs acc1 tid j).mpr ⟨?_, ?_⟩
        · rw [strip_length hacc1strip]
          exact getL_fk_some_lt doc j tid hfkj
        · rw [strip_getL_fk hacc1strip j]
          exact hfkj
      · rw [strip_length hacc1strip]
        exact getL_fk_some_lt doc j tid hfkj
      · rw [strip_getL_fk hacc1strip j]
        exact hfkj
      · intro i hi s hsel
        have hidoc : i ∈ childIdxs doc tid := by
          rw [← strip_childIdxs hacc1strip tid]
          exact hi
        have hsdoc : (getL doc i).selectorId = some s := by
          rw [← strip_getL_selectorId hacc1strip i]
          exact hsel
        refine ⟨?_, ?_⟩
        · intro hcontr
          exact hH2 ((mem_reachFks_succ doc f2 tid tid).mpr
            ⟨i, hidoc, s, hsdoc, Or.inl hcontr⟩)
        · intro hcontr
          rw [strip_reachFks hacc1strip f2 s] at hcontr
          exact hH2 ((mem_reachFks_succ doc f2 tid tid).mpr
            ⟨i, hidoc, s, hsdoc, Or.inr hcontr⟩)
    have hfinal := hideFold_untouched (f2+1) (some "open") doc
      (hideAndShow_untouched (f2+1)) L2 d2 j hd2strip
      (fun h => hjnotin j (Or.inr h) rfl)
      (fun i hi s hsel => hcondSide i (Or.inr hi) s hsel)
    rw [hfinal, hjd2]

/-- A nested toggle root tagged into toggle `r`, with stored status
closed. -/
def nestedClosedT : Block :=
  { id := "b6", name := "toggle", fk := some "r", holderId := some "u6",
    selectorId := some "m", status := some "closed", itemClass := true, hidden := false }

/-- The spec's Scenario B shape: toggle `r` with a plain member and a
nested closed toggle `m` holding one member. -/
def docC3 : List Block := [rootBlockR, childA, nestedClosedT, childP]

/-- Witness for C3 at a concrete input: statuses survive a closed pass;
the nested member is hidden by the closed pass; the open pass shows the
direct member; and the open pass hides the nested member exactly
because the nested toggle's own stored status is closed. -/
theorem hideAndShowBlocks_visibility_witness :
    ((hideAndShowBlocks 3 docC3 "r" (some "closed")).map stripHidden
        = docC3.map stripHidden)
    ∧ (getL (hideAndShowBlocks 3 docC3 "r" (some "closed")) 3).hidden = true
    ∧ (getL (hideAndShowBlocks 3 docC3 "r" (some "open")) 1).hidden = false
    ∧ (getL (hideAndShowBlocks 3 docC3 "r" (some "open")) 3).hidden
        = ((getL docC3 2).status == some "closed") :=
  ⟨(hideAndShowBlocks_visibility docC3 "r" 3).1 (some "closed"),
   (hideAndShowBlocks_visibility docC3 "r" 3).2.1 3 (by decide),
   (hideAndShowBlocks_visibility docC3 "r" 3).2.2.1 2 rfl (by decide) 1 (by decide),
   (hideAndShowBlocks_visibility docC3 "r" 3).2.2.2 1 2 "m" rfl (by decide) (by decide)
     (by decide)
     (by
       intro i hi hne s hsel
       have hch : childIdxs docC3 "r" = [1, 2] := by decide
       rw [hch] at hi
       have hi2 : i = 1 ∨ i = 2 := by
         rcases List.mem_cons.mp hi with h | h
         · exact Or.inl h
         · rcases List.mem_cons.mp h with h2 | h2
           · exact Or.inr h2
           · simp at h2
       rcases hi2 with h | h
       · subst h
         have hsel1 : (getL docC3 1).selectorId = none := by decide
         rw [hsel1] at hsel
         exact absurd hsel (by simp)
       · subst h
         exact absurd rfl hne)
     (by decide) 3 (by decide)⟩
